import Mathlib

set_option maxHeartbeats 1000000

/-!
Shallow embedding of the `media-manager` reconciliation and destination-planning
engine (files `media_manager/utils.py`, `media_manager/tidal_client.py`,
`media_manager/errors.py`).

Strings are modeled as `List Char` (POSIX paths included).  Regex character
classes are modeled on the ASCII range; once the normalizer's
NFKD-and-ASCII-encode step has run, every character is ASCII, so from that
point on the ASCII model is exact.  The filesystem is modeled as the list of
existing file paths, and every filesystem call made by the plan executor is
recorded as an explicit event.
-/

/-- Characters matched by the regex class `\s` (ASCII range):
space, tab, newline, vertical tab, form feed, carriage return. -/
def isSpaceChar (c : Char) : Bool :=
  c == ' ' || c.toNat == 9 || c.toNat == 10 || c.toNat == 11 || c.toNat == 12 || c.toNat == 13

/-- Characters matched by the regex class `\d` (ASCII range). -/
def isDigitChar (c : Char) : Bool :=
  c.isDigit

/-- Characters matched by the regex class `\w` (ASCII range):
letters, digits and the underscore. -/
def isWordChar (c : Char) : Bool :=
  c.isAlpha || c.isDigit || c == '_'

/-- Python `str.lower`, modeled on the ASCII range: the twenty-six ASCII
capitals move down by 32 code points, everything else is unchanged.
Non-ASCII uppercase letters are folded by the decomposition table below
instead, matching the composed behavior of `lower` followed by NFKD and
ASCII-encode. -/
def pyLower (c : Char) : Char :=
  if 65 ≤ c.toNat ∧ c.toNat ≤ 90 then Char.ofNat (c.toNat + 32) else c

/-- Combining acute accent (U+0301), a non-ASCII mark emitted by NFKD. -/
def combAcute : Char := Char.ofNat 769

/-- Combining grave accent (U+0300). -/
def combGrave : Char := Char.ofNat 768

/-- Combining circumflex accent (U+0302). -/
def combCirc : Char := Char.ofNat 770

/-- Combining tilde (U+0303). -/
def combTilde : Char := Char.ofNat 771

/-- Combining diaeresis (U+0308). -/
def combDiaeresis : Char := Char.ofNat 776

/-- Combining ring above (U+030A). -/
def combRing : Char := Char.ofNat 778

/-- Combining cedilla (U+0327). -/
def combCedilla : Char := Char.ofNat 807

/-- Decomposition table modeling `unicodedata.normalize("NFKD", s)` for the
accented Latin letters that occur in practice.  The combining marks it emits
are non-ASCII and are dropped by the subsequent `encode("ASCII", "ignore")`
step.  Since the pipeline lowercases before decomposing and the in-scope
`str.lower` model only folds ASCII, entries for uppercase accented letters
produce the lowercase base letter directly, matching the composed Python
behavior.  Non-ASCII characters absent from the table are dropped by the
ASCII filter, as NFKD leaves undecomposable characters untouched and the
ASCII encode with `ignore` then discards them. -/
def decompTable : List (Char × List Char) :=
  [('á', ['a', combAcute]), ('à', ['a', combGrave]), ('â', ['a', combCirc]),
   ('ä', ['a', combDiaeresis]), ('ã', ['a', combTilde]), ('å', ['a', combRing]),
   ('é', ['e', combAcute]), ('è', ['e', combGrave]), ('ê', ['e', combCirc]),
   ('ë', ['e', combDiaeresis]),
   ('í', ['i', combAcute]), ('ì', ['i', combGrave]), ('î', ['i', combCirc]),
   ('ï', ['i', combDiaeresis]),
   ('ó', ['o', combAcute]), ('ò', ['o', combGrave]), ('ô', ['o', combCirc]),
   ('ö', ['o', combDiaeresis]), ('õ', ['o', combTilde]),
   ('ú', ['u', combAcute]), ('ù', ['u', combGrave]), ('û', ['u', combCirc]),
   ('ü', ['u', combDiaeresis]),
   ('ñ', ['n', combTilde]), ('ç', ['c', combCedilla]),
   ('ý', ['y', combAcute]), ('ÿ', ['y', combDiaeresis]),
   ('Á', ['a', combAcute]), ('À', ['a', combGrave]), ('Â', ['a', combCirc]),
   ('Ä', ['a', combDiaeresis]), ('Ã', ['a', combTilde]), ('Å', ['a', combRing]),
   ('É', ['e', combAcute]), ('È', ['e', combGrave]), ('Ê', ['e', combCirc]),
   ('Ë', ['e', combDiaeresis]),
   ('Í', ['i', combAcute]), ('Ì', ['i', combGrave]), ('Î', ['i', combCirc]),
   ('Ï', ['i', combDiaeresis]),
   ('Ó', ['o', combAcute]), ('Ò', ['o', combGrave]), ('Ô', ['o', combCirc]),
   ('Ö', ['o', combDiaeresis]), ('Õ', ['o', combTilde]),
   ('Ú', ['u', combAcute]), ('Ù', ['u', combGrave]), ('Û', ['u', combCirc]),
   ('Ü', ['u', combDiaeresis]),
   ('Ñ', ['n', combTilde]), ('Ç', ['c', combCedilla]), ('Ý', ['y', combAcute])]

/-- Per-character NFKD decomposition: ASCII characters decompose to
themselves, tabled characters to their decomposition, and any other character
stays as is (and is then removed by the ASCII filter). -/
def decompChar (c : Char) : List Char :=
  if c.toNat < 128 then [c]
  else
    match decompTable.lookup c with
    | some ds => ds
    | none => [c]

/-- Model of `unicodedata.normalize("NFKD", s).encode("ASCII", "ignore")`:
decompose each character, then drop everything outside the ASCII range. -/
def nfkdAscii (cs : List Char) : List Char :=
  ((cs.map decompChar).flatten).filter (fun c => c.toNat < 128)

/-- One pass of `re.sub(r"\s+", " ", s)`: the flag records whether the
previous character was part of a whitespace run (whose single replacement
space has already been emitted). -/
def collapseAux : Bool → List Char → List Char
  | _, [] => []
  | prevSpace, c :: rest =>
    if isSpaceChar c then
      if prevSpace then collapseAux true rest
      else ' ' :: collapseAux true rest
    else c :: collapseAux false rest

/-- Model of `re.sub(r"\s+", " ", s)`: collapse every whitespace run to one
space. -/
def collapseWS (cs : List Char) : List Char :=
  collapseAux false cs

/-- Remove trailing whitespace (the right half of Python `str.strip`). -/
def stripTrail : List Char → List Char
  | [] => []
  | c :: rest =>
    if stripTrail rest = [] ∧ isSpaceChar c then [] else c :: stripTrail rest

/-- Model of Python `str.strip()`: drop leading and trailing whitespace. -/
def stripWS (cs : List Char) : List Char :=
  stripTrail (cs.dropWhile isSpaceChar)

/-- The double-quote character. -/
def dquote : Char := Char.ofNat 34

/-- The single-quote character. -/
def squote : Char := Char.ofNat 39

/-- Model of `utils.normalize_name`: lowercase, NFKD-decompose and drop
non-ASCII, replace double and single quotes with underscores, strip every
character outside `[\w\s\-\(\)]`, turn underscores into spaces, collapse
whitespace runs, and trim. -/
def normalize_name (name : List Char) : List Char :=
  let s1 := name.map pyLower
  let s2 := nfkdAscii s1
  let s3 := s2.map (fun c => if c = dquote ∨ c = squote then '_' else c)
  let s4 := s3.filter (fun c => isWordChar c || isSpaceChar c || c == '-' || c == '(' || c == ')')
  let s5 := s4.map (fun c => if c = '_' then ' ' else c)
  stripWS (collapseWS s5)

/-- True when the list begins with the separator `" - "`. -/
def startsSep : List Char → Bool
  | c :: d :: e :: _ => c == ' ' && d == '-' && e == ' '
  | _ => false

/-- True when the list contains the separator `" - "` somewhere. -/
def hasSep : List Char → Bool
  | [] => false
  | c :: rest => startsSep (c :: rest) || hasSep rest

/-- True when the list ends with the two characters `" -"`. -/
def endsSpaceDash : List Char → Bool
  | [c, d] => c == ' ' && d == '-'
  | _ :: rest => endsSpaceDash rest
  | [] => false

/-- Model of `s.split(" - ", 1)`: split at the first occurrence of the
separator, or `none` when the separator is absent. -/
def splitDash : List Char → Option (List Char × List Char)
  | [] => none
  | c :: rest =>
    if startsSep (c :: rest) then some ([], rest.drop 2)
    else
      match splitDash rest with
      | some (p1, p2) => some (c :: p1, p2)
      | none => none

/-- Split a file name at its last dot, returning the base and the extension
including the dot; `none` when there is no dot at all. -/
def splitExtAux : List Char → Option (List Char × List Char)
  | [] => none
  | c :: rest =>
    match splitExtAux rest with
    | some (b, e) => some (c :: b, e)
    | none => if c = '.' then some ([], c :: rest) else none

/-- Model of `os.path.splitext(name)[0]` at the base-name level: remove the
extension after the last dot, unless every character before that dot is a dot
(in which case there is no extension). -/
def splitextBase (name : List Char) : List Char :=
  match splitExtAux name with
  | none => name
  | some (b, _) => if b.all (fun c => c == '.') then name else b

/-- Model of `os.path.splitext(name)[1]` (also pathlib `Path.suffix`):
the extension including its leading dot, or empty. -/
def splitextExt (name : List Char) : List Char :=
  match splitExtAux name with
  | none => []
  | some (b, e) => if b.all (fun c => c == '.') then [] else e

/-- The base-name component of a POSIX path: everything after the last
slash (pathlib `Path.name` for plain file paths). -/
def pathName (p : List Char) : List Char :=
  (p.reverse.takeWhile (fun c => c != '/')).reverse

/-- The extension of a path's base name (pathlib `Path.suffix`). -/
def pathSuffix (p : List Char) : List Char :=
  splitextExt (pathName p)

/-- The parent directory of a POSIX path: everything before the last slash. -/
def parentDir (p : List Char) : List Char :=
  ((p.reverse.dropWhile (fun c => c != '/')).drop 1).reverse

/-- Model of `re.sub(r"^\d+\s*[\.\-]\s*", "", name)`: strip an optional
leading numeric prefix such as `"01 - "` or `"001. "`.  The regex is
anchored and its pieces are greedy with no profitable backtracking, so the
maximal-munch reading below is exact. -/
def stripLeadingNum (name : List Char) : List Char :=
  if name.takeWhile isDigitChar = [] then name
  else
    match (name.dropWhile isDigitChar).dropWhile isSpaceChar with
    | c :: rest => if c = '.' ∨ c = '-' then rest.dropWhile isSpaceChar else name
    | [] => name

/-- Structured form of `errors.FileParsingError`: the offending path and a
human-readable reason. -/
structure ParseErr where
  filepath : List Char
  reason : List Char
deriving DecidableEq

/-- Model of `utils.extract_artist_and_track`: take the path's base name,
strip a leading numeric prefix, drop the extension, split on the first
`" - "`, and normalize both halves; fail when the separator is absent or a
half normalizes to the empty string. -/
def extract_artist_and_track (filepath : List Char) : Except ParseErr (List Char × List Char) :=
  let name := pathName filepath
  let name2 := stripLeadingNum name
  let base := splitextBase name2
  match splitDash base with
  | none => .error ⟨filepath, ("Expected format: Artist - Track").data⟩
  | some (p1, p2) =>
    let artist := normalize_name p1
    let track := normalize_name p2
    if artist = [] ∨ track = [] then
      .error ⟨filepath, ("Empty artist or track name after normalization").data⟩
    else .ok (artist, track)

/-- Model of `tidal_client.Track`: the playlist-entry wrapper, with the
fields the engine reads (`album_artist.name` is stored flat as
`albumArtistName`, `album.id` as `albumId`). -/
structure Track where
  position : Nat
  name : List Char
  artists : List (List Char)
  albumId : List Char
  albumName : List Char
  albumArtistName : List Char
  trackNum : Nat
  volumeNum : Nat
deriving DecidableEq

/-- Model of the `Track.normalized_name` property. -/
def Track.normalizedName (t : Track) : List Char :=
  normalize_name t.name

/-- Model of the `Track.normalized_artists` property. -/
def Track.normalizedArtists (t : Track) : List (List Char) :=
  t.artists.map normalize_name

/-- Model of `tidal_client.PlaylistMatch`: one playlist track paired with one
local file and the pre-computed consolidated album artist. -/
structure PlaylistMatch where
  track : Track
  localFile : List Char
  consolidatedAlbumArtist : List Char
deriving DecidableEq

/-- Lookup in an insertion-ordered association list (Python `dict.get`). -/
def mapGet {β : Type} (m : List (List Char × β)) (k : List Char) : Option β :=
  match m with
  | [] => none
  | (k0, v) :: rest => if k0 = k then some v else mapGet rest k

/-- One `Counter` increment: bump the key's count in place, or append the key
with count 1 (Python dicts keep insertion order). -/
def counterAdd (m : List (List Char × Nat)) (a : List Char) : List (List Char × Nat) :=
  match m with
  | [] => [(a, 1)]
  | (k, c) :: rest => if k = a then (k, c + 1) :: rest else (k, c) :: counterAdd rest a

/-- The artist-occurrence `Counter` of all tracks of one album: every artist
slot of every track contributes one count. -/
def counterOf (tracks : List Track) : List (List Char × Nat) :=
  ((tracks.map Track.artists).flatten).foldl counterAdd []

/-- Stable insertion by descending count, placing the new element before the
first strictly smaller count (model of Python stable sort with a
reverse count key). -/
def insertByCountDesc (p : List Char × Nat) : List (List Char × Nat) → List (List Char × Nat)
  | [] => [p]
  | q :: rest => if p.2 < q.2 ∨ p.2 = q.2 then q :: insertByCountDesc p rest else p :: q :: rest

/-- Model of `Counter.most_common()`: the counter items stably sorted by
descending count. -/
def sortByCountDesc : List (List Char × Nat) → List (List Char × Nat)
  | [] => []
  | p :: rest => insertByCountDesc p (sortByCountDesc rest)

/-- Strict lexicographic comparison of strings by code point, as Python
string `<`. -/
def lexLt : List Char → List Char → Bool
  | [], [] => false
  | [], _ :: _ => true
  | _ :: _, [] => false
  | a :: as, b :: bs => if a < b then true else if b < a then false else lexLt as bs

/-- Stable insertion by ascending lexicographic order. -/
def insertLex (x : List Char) : List (List Char) → List (List Char)
  | [] => [x]
  | y :: rest => if lexLt y x then y :: insertLex x rest else x :: y :: rest

/-- Model of Python `sorted` on a list of strings. -/
def sortLexAsc : List (List Char) → List (List Char)
  | [] => []
  | x :: rest => insertLex x (sortLexAsc rest)

/-- Model of `sep.join(parts)`. -/
def joinList (sep : List Char) : List (List Char) → List Char
  | [] => []
  | [x] => x
  | x :: rest => x ++ sep ++ joinList sep rest

/-- Model of `Playlist._get_consolidated_album_artist`: frequency analysis of
the artists over all tracks of one album.  The Python code guards on the whole
`Counter` being non-empty before calling `most_common`; a counter is empty
exactly when its sort is, so the two checks are folded into one match. -/
def _get_consolidated_album_artist (tracks : List Track) : List Char :=
  match tracks with
  | [] => ("Unknown Artist").data
  | t0 :: _ =>
    match sortByCountDesc (counterOf tracks) with
    | [] => t0.albumArtistName
    | (a0, c0) :: mcRest =>
      let top := (((a0, c0) :: mcRest).filter (fun p => p.2 = c0)).map Prod.fst
      if top.length = 1 then top.headD []
      else if top.length > 2 then ("Various Artists").data
      else joinList (" & ").data (sortLexAsc top)

/-- Append a track to its album's group, or open a new group at the end
(Python dict-of-lists grouping in `_build_album_artist_map`). -/
def addGroup (g : List (List Char × List Track)) (k : List Char) (t : Track) :
    List (List Char × List Track) :=
  match g with
  | [] => [(k, [t])]
  | (k0, ts) :: rest =>
    if k0 = k then (k0, ts ++ [t]) :: rest else (k0, ts) :: addGroup rest k t

/-- Model of `Playlist._build_album_artist_map`: group the playlist's tracks
by album id in insertion order, then consolidate each group's artist. -/
def build_album_artist_map (tracks : List Track) : List (List Char × List Char) :=
  (tracks.foldl (fun g t => addGroup g t.albumId t) []).map
    (fun p => (p.1, _get_consolidated_album_artist p.2))

/-- Append a parsed `(artist, path)` entry to its normalized-track-name
bucket, or open a new bucket at the end. -/
def addEntry (idx : List (List Char × List (List Char × List Char))) (key : List Char)
    (e : List Char × List Char) : List (List Char × List (List Char × List Char)) :=
  match idx with
  | [] => [(key, [e])]
  | (k0, es) :: rest =>
    if k0 = key then (k0, es ++ [e]) :: rest else (k0, es) :: addEntry rest key e

/-- The local-file index together with the accumulated parsing failures
(the first half of `Playlist.verify_playlist`). -/
structure LocalIndex where
  index : List (List Char × List (List Char × List Char))
  parsingErrors : List ParseErr
deriving DecidableEq

/-- One iteration of the index-building loop: parse the file and either
bucket it under its normalized track name or record the failure. -/
def indexStep (acc : LocalIndex) (f : List Char) : LocalIndex :=
  match extract_artist_and_track f with
  | .ok (a, t) => { acc with index := addEntry acc.index t (a, f) }
  | .error e => { acc with parsingErrors := acc.parsingErrors ++ [e] }

/-- Build the local track map: parse every file in scan order; parsed files
are bucketed under their normalized track name, failures are collected. -/
def buildLocalIndex (files : List (List Char)) : LocalIndex :=
  files.foldl indexStep ⟨[], []⟩

/-- The inner candidate scan of `verify_playlist`: first candidate whose
local artist equals the given playlist artist. -/
def scanEntries (a : List Char) : List (List Char × List Char) → Option (List Char)
  | [] => none
  | (la, fp) :: rest => if a = la then some fp else scanEntries a rest

/-- The nested matching loops of `verify_playlist`: for each playlist artist
in list order, scan the candidates in scan order; the first equality wins. -/
def findMatchedFile (artists : List (List Char)) (entries : List (List Char × List Char)) :
    Option (List Char) :=
  match artists with
  | [] => none
  | a :: rest =>
    match scanEntries a entries with
    | some fp => some fp
    | none => findMatchedFile rest entries

/-- A missing-track report entry (position, name, artists), the structured
content of the formatted string appended to `missing_from_local`. -/
structure MissingEntry where
  position : Nat
  name : List Char
  artists : List (List Char)
deriving DecidableEq

/-- An artist-mismatch report entry, the structured content of the formatted
string appended to `artist_mismatches`. -/
structure MismatchEntry where
  position : Nat
  name : List Char
  localArtists : List (List Char)
  expectedArtists : List (List Char)
deriving DecidableEq

/-- Outcome of processing one playlist track in the verification loop. -/
inductive StepResult where
  | missing (e : MissingEntry)
  | mismatch (e : MismatchEntry)
  | matched (m : PlaylistMatch)
deriving DecidableEq

/-- One iteration of the verification loop over a playlist track: look the
normalized name up in the local index (`if not local_entries` also treats an
empty bucket as missing), then run the nested artist-matching loops. -/
def verifyStep (idx : List (List Char × List (List Char × List Char)))
    (amap : List (List Char × List Char)) (t : Track) : StepResult :=
  match mapGet idx t.normalizedName with
  | none => .missing ⟨t.position, t.name, t.artists⟩
  | some entries =>
    if entries = [] then .missing ⟨t.position, t.name, t.artists⟩
    else
      match findMatchedFile t.normalizedArtists entries with
      | some fp => .matched ⟨t, fp, (mapGet amap t.albumId).getD t.albumArtistName⟩
      | none => .mismatch ⟨t.position, t.name, entries.map Prod.fst, t.artists⟩

/-- The three accumulators of the verification loop, in playlist order. -/
structure ScanResult where
  missing : List MissingEntry
  mismatches : List MismatchEntry
  matchList : List PlaylistMatch
deriving DecidableEq

/-- The verification loop over all playlist tracks in playlist order. -/
def processTracks (idx : List (List Char × List (List Char × List Char)))
    (amap : List (List Char × List Char)) : List Track → ScanResult
  | [] => ⟨[], [], []⟩
  | t :: rest =>
    let r := processTracks idx amap rest
    match verifyStep idx amap t with
    | .missing e => ⟨e :: r.missing, r.mismatches, r.matchList⟩
    | .mismatch e => ⟨r.missing, e :: r.mismatches, r.matchList⟩
    | .matched m => ⟨r.missing, r.mismatches, m :: r.matchList⟩

/-- Errors `Playlist.verify_playlist` can raise after the local files are
collected: the summary logging computes `matches / len(tracks) * 100`, which
raises `ZeroDivisionError` for an empty playlist before the verification
check is reached; otherwise a `PlaylistVerificationError` carrying the three
accumulated lists. -/
inductive VerifyError where
  | zeroDivision
  | verification (parsingErrors : List ParseErr) (artistMismatches : List MismatchEntry)
      (missingFromLocal : List MissingEntry)
deriving DecidableEq

namespace Playlist

/-- Model of `Playlist.verify_playlist` from the point where the folder
scanner has produced the ordered local file list: build the index, run the
verification loop in playlist order, then either raise or return the ordered
match list.  The album-artist map is the one built in `Playlist.__init__`. -/
def verify_playlist (tracks : List Track) (files : List (List Char)) :
    Except VerifyError (List PlaylistMatch) :=
  let li := buildLocalIndex files
  let r := processTracks li.index (build_album_artist_map tracks) tracks
  if tracks.length = 0 then .error .zeroDivision
  else if ¬(li.parsingErrors = [] ∧ r.mismatches = [] ∧ r.missing = []) then
    .error (.verification li.parsingErrors r.mismatches r.missing)
  else .ok r.matchList

end Playlist

/-- Model of `utils.sanitize_filename`: sequentially replace the risky
characters per the replacement table (in its insertion order), strip leading
and trailing dots and spaces, and collapse whitespace runs. -/
def sanitize_filename (name : List Char) : List Char :=
  let repl := fun (c : Char) =>
    if c = ':' then ['-']
    else if c = '/' then ['-']
    else if c = Char.ofNat 92 then ['-']
    else if c = '<' then ['(']
    else if c = '>' then [')']
    else if c = dquote then [squote]
    else if c = '|' then ['-']
    else if c = '?' then []
    else if c = '*' then []
    else if c = Char.ofNat 0 then []
    else [c]
  let s1 := (name.map repl).flatten
  let s2 := (s1.dropWhile (fun c => c == '.' || c == ' ')).reverse
  let s3 := (s2.dropWhile (fun c => c == '.' || c == ' ')).reverse
  collapseWS s3

/-- Zero-padded decimal rendering of the track number (`f"{n:02d}"`). -/
def padTrackNum (n : Nat) : List Char :=
  let ds := (Nat.repr n).data
  if ds.length < 2 then '0' :: ds else ds

/-- Model of `PlaylistMatch._generate_destination_path`:
`base/album_artist/album/{padded_track_num} - {artists} - {track_name}{ext}`
with every segment sanitized independently. -/
def PlaylistMatch._generate_destination_path (m : PlaylistMatch) (base : List Char) : List Char :=
  let fileExt := pathSuffix m.localFile
  let albumArtist := sanitize_filename m.consolidatedAlbumArtist
  let albumName := sanitize_filename m.track.albumName
  let trackName := sanitize_filename m.track.name
  let artistsStr := sanitize_filename (joinList (", ").data m.track.artists)
  let filename :=
    padTrackNum m.track.trackNum ++ (" - ").data ++ artistsStr ++ (" - ").data ++ trackName ++ fileExt
  base ++ '/' :: (albumArtist ++ '/' :: (albumName ++ '/' :: filename))

/-- The two real file operations of the plan executor. -/
inductive FileOp where
  | copy
  | move
deriving DecidableEq

/-- Observable actions of one `move_or_copy` call: every filesystem probe,
every log line, and every mutating call, in program order. -/
inductive Event where
  | srcCheck (path : List Char) (found : Bool)
  | destCheck (path : List Char) (found : Bool)
  | logSkip (position : Nat) (src dest : List Char)
  | logWould (op : FileOp) (position : Nat) (src dest : List Char)
  | mkdirParents (dir : List Char)
  | didOp (op : FileOp) (src dest : List Char)
deriving DecidableEq

/-- Structured form of `errors.FileOperationError`. -/
structure FileOpErr where
  operation : List Char
  filepath : List Char
  details : List Char
deriving DecidableEq

/-- The filesystem, modeled as the list of existing file paths. -/
abbrev FS := List (List Char)

/-- Model of `Path.exists`. -/
def fsExists (fs : FS) (p : List Char) : Bool :=
  fs.contains p

/-- A file coming into existence (`shutil.copy2` target, `shutil.move` target). -/
def fsAdd (fs : FS) (p : List Char) : FS :=
  fs ++ [p]

/-- A file ceasing to exist (`shutil.move` source). -/
def fsRemove (fs : FS) (p : List Char) : FS :=
  fs.erase p

/-- Model of `PlaylistMatch.move_or_copy`: no-op mode returns at once;
otherwise check the source, compute the destination, skip when it exists in a
real run, report in a dry run, and otherwise create the parent directory and
copy or move.  The underlying copy and move calls are modeled as always
succeeding (their failure path wraps an external OS error). -/
def PlaylistMatch.move_or_copy (m : PlaylistMatch) (base : List Char)
    (copy move dryRun : Bool) (fs : FS) : List Event × Except FileOpErr FS :=
  if copy = false ∧ move = false then ([], .ok fs)
  else
    let sEx := fsExists fs m.localFile
    if sEx = false then
      ([Event.srcCheck m.localFile sEx],
       .error ⟨("validate source").data, m.localFile, ("Source file does not exist").data⟩)
    else
      let dest := PlaylistMatch._generate_destination_path m base
      let dEx := fsExists fs dest
      let evs := [Event.srcCheck m.localFile sEx, Event.destCheck dest dEx]
      if dEx = true ∧ dryRun = false then
        (evs ++ [Event.logSkip (m.track.position + 1) m.localFile dest], .ok fs)
      else if dryRun = true then
        (evs ++ [Event.logWould (if move = true then FileOp.move else FileOp.copy)
          (m.track.position + 1) m.localFile dest], .ok fs)
      else
        let fs1 := if move = true then fsAdd (fsRemove fs m.localFile) dest else fsAdd fs dest
        (evs ++ [Event.mkdirParents (parentDir dest),
          Event.didOp (if move = true then FileOp.move else FileOp.copy) m.localFile dest],
         .ok fs1)

/-- The plan-executor loop of `Playlist.move_or_copy`: apply each match in
order, threading the filesystem; a file-operation error aborts the rest. -/
def applyMatches (ms : List PlaylistMatch) (base : List Char)
    (copy move dryRun : Bool) (fs : FS) : List Event × Except FileOpErr FS :=
  match ms with
  | [] => ([], .ok fs)
  | m :: rest =>
    match PlaylistMatch.move_or_copy m base copy move dryRun fs with
    | (ev, .error e) => (ev, .error e)
    | (ev, .ok fs1) =>
      let r2 := applyMatches rest base copy move dryRun fs1
      (ev ++ r2.1, r2.2)

/-- Model of `Playlist.move_or_copy`: verify the playlist, then execute the
plan over the matches. -/
def Playlist.move_or_copy (tracks : List Track) (files : List (List Char))
    (dest : List Char) (copy move dryRun : Bool) (fs : FS) :
    List Event × Except (VerifyError ⊕ FileOpErr) FS :=
  match Playlist.verify_playlist tracks files with
  | .error e => ([], .error (Sum.inl e))
  | .ok ms =>
    match applyMatches ms dest copy move dryRun fs with
    | (ev, .error e) => (ev, .error (Sum.inr e))
    | (ev, .ok fs1) => (ev, .ok fs1)

/-- True for the events that mutate the filesystem (or its directories). -/
def isFileOpEvent : Event → Bool
  | .mkdirParents _ => true
  | .didOp _ _ _ => true
  | _ => false

/-- True for a skip-report log event. -/
def isSkipEvent : Event → Bool
  | .logSkip _ _ _ => true
  | _ => false

/-- Modelled from the spec (section 4.4) for comparison with the code: the
first candidate in the candidate list's scan order whose normalized artist
equals any of the track's normalized artists. -/
def specFirstCandidateMatch (artists : List (List Char))
    (entries : List (List Char × List Char)) : Option (List Char) :=
  (entries.find? (fun e => artists.contains e.1)).map Prod.snd

/-- Declarative characterization of the code's nested matching loops: the
first playlist artist that has any candidate determines the file, namely that
artist's first candidate in scan order. -/
def artistPriorityMatch (artists : List (List Char))
    (entries : List (List Char × List Char)) : Option (List Char) :=
  match artists.find? (fun a => (scanEntries a entries).isSome) with
  | some a => scanEntries a entries
  | none => none

/-- Declarative occurrence count of one artist name over an album's tracks:
the number of artist slots holding that name. -/
def occCount (tracks : List Track) (a : List Char) : Nat :=
  ((tracks.map Track.artists).flatten).count a

/-- A sample playlist track used by concrete witnesses. -/
def sTrack : Track :=
  ⟨0, ("S").data, [("A").data, ("B").data], ("alb").data, ("Al").data, ("AA").data, 1, 1⟩

/-- The same sample track with its artist list reversed. -/
def sTrackRev : Track :=
  ⟨0, ("S").data, [("B").data, ("A").data], ("alb").data, ("Al").data, ("AA").data, 1, 1⟩

/-- A sample match used by the executor witnesses. -/
def sMatch : PlaylistMatch :=
  ⟨sTrack, ("A - S.mp3").data, ("A and B").data⟩

/-- First of two sample playlist entries sharing one title. -/
def dupTrack0 : Track :=
  ⟨0, ("Song A").data, [("X").data], ("alb").data, ("Al").data, ("AA").data, 1, 1⟩

/-- Second sample playlist entry with the same title at the next position. -/
def dupTrack1 : Track :=
  ⟨1, ("Song A").data, [("X").data], ("alb").data, ("Al").data, ("AA").data, 2, 1⟩

/-- The normalized track-name key under which a parsed file is bucketed
(empty for unparsable files); the bucket key is a function of the path. -/
def parsedTrackKey (p : List Char) : List Char :=
  match extract_artist_and_track p with
  | .ok pr => pr.2
  | .error _ => []

/-- The parse outcome of one file, as an optional parsing failure. -/
def parseFailure (f : List Char) : Option ParseErr :=
  match extract_artist_and_track f with
  | .ok _ => none
  | .error e => some e

/-- Invariant of the local-file index: every entry of every bucket parses
back to its stored artist and its bucket key. -/
def IndexInv (idx : List (List Char × List (List Char × List Char))) : Prop :=
  ∀ k es, mapGet idx k = some es → ∀ e ∈ es, extract_artist_and_track e.2 = .ok (e.1, k)

/-- The count stored in an artist counter (zero for absent keys). -/
def countOf (m : List (List Char × Nat)) (a : List Char) : Nat :=
  (mapGet m a).getD 0

/-- Canonical whitespace shape of a partly normalized string: every
whitespace-class character is a plain space and is never followed by another
whitespace-class character. -/
def spacedOK : List Char → Prop
  | [] => True
  | [c] => isSpaceChar c = true → c = ' '
  | c :: d :: rest => (isSpaceChar c = true → c = ' ' ∧ isSpaceChar d = false) ∧ spacedOK (d :: rest)

/-- Every step of `move_or_copy` leaves the filesystem unchanged when the
destination already exists in a real run. -/
theorem move_or_copy_skip_eq (m : PlaylistMatch) (base : List Char) (c mv : Bool) (fs : FS)
    (hmode : c = true ∨ mv = true)
    (hsrc : fsExists fs m.localFile = true)
    (hdst : fsExists fs (PlaylistMatch._generate_destination_path m base) = true) :
    PlaylistMatch.move_or_copy m base c mv false fs =
      ([Event.srcCheck m.localFile true,
        Event.destCheck (PlaylistMatch._generate_destination_path m base) true,
        Event.logSkip (m.track.position + 1) m.localFile
          (PlaylistMatch._generate_destination_path m base)], .ok fs) := by
  have hc : ¬(c = false ∧ mv = false) := by
    rcases hmode with h | h <;> simp [h]
  simp [PlaylistMatch.move_or_copy, hc, hsrc, hdst]

/-- Running the executor loop over matches whose sources and destinations all
exist performs no file operation and returns the filesystem unchanged. -/
theorem applyMatches_all_skipped (ms : List PlaylistMatch) (base : List Char)
    (c mv : Bool) (fs : FS) (hmode : c = true ∨ mv = true)
    (hall : ∀ m ∈ ms, fsExists fs m.localFile = true ∧
      fsExists fs (PlaylistMatch._generate_destination_path m base) = true) :
    (applyMatches ms base c mv false fs).2 = .ok fs ∧
      ∀ e ∈ (applyMatches ms base c mv false fs).1, isFileOpEvent e = false := by
  induction ms with
  | nil => simp [applyMatches]
  | cons m rest ih =>
    have hm := hall m (List.mem_cons_self m rest)
    have hstep := move_or_copy_skip_eq m base c mv fs hmode hm.1 hm.2
    have ihr := ih (fun x hx => hall x (List.mem_cons_of_mem m hx))
    constructor
    · simp [applyMatches, hstep, ihr.1]
    · intro e he
      simp only [applyMatches, hstep] at he
      simp only [List.mem_append, List.mem_cons, List.mem_singleton,
        List.not_mem_nil, or_false] at he
      rcases he with he | he
      · rcases he with rfl | rfl | rfl <;> rfl
      · exact ihr.2 e he

/-- C7: in a real copy or move run, when the source exists and the computed
destination already exists, `PlaylistMatch.move_or_copy` returns without
error and performs no file operation, leaving the filesystem (source and
destination included) unchanged; consequently re-running the executor loop
over a destination tree already containing every planned file performs zero
file operations. -/
theorem move_or_copy_skip_idempotent :
    (∀ (m : PlaylistMatch) (base : List Char) (c mv : Bool) (fs : FS),
      (c = true ∨ mv = true) →
      fsExists fs m.localFile = true →
      fsExists fs (PlaylistMatch._generate_destination_path m base) = true →
      PlaylistMatch.move_or_copy m base c mv false fs =
        ([Event.srcCheck m.localFile true,
          Event.destCheck (PlaylistMatch._generate_destination_path m base) true,
          Event.logSkip (m.track.position + 1) m.localFile
            (PlaylistMatch._generate_destination_path m base)], .ok fs)) ∧
    (∀ (ms : List PlaylistMatch) (base : List Char) (c mv : Bool) (fs : FS),
      (c = true ∨ mv = true) →
      (∀ m ∈ ms, fsExists fs m.localFile = true ∧
        fsExists fs (PlaylistMatch._generate_destination_path m base) = true) →
      (applyMatches ms base c mv false fs).2 = .ok fs ∧
        ∀ e ∈ (applyMatches ms base c mv false fs).1, isFileOpEvent e = false) :=
  ⟨move_or_copy_skip_eq, applyMatches_all_skipped⟩

/-- Witness for C7: a concrete skipped copy with the destination present. -/
theorem move_or_copy_skip_idempotent_witness :
    PlaylistMatch.move_or_copy sMatch ("out").data true false false
        [sMatch.localFile, PlaylistMatch._generate_destination_path sMatch ("out").data] =
      ([Event.srcCheck sMatch.localFile true,
        Event.destCheck (PlaylistMatch._generate_destination_path sMatch ("out").data) true,
        Event.logSkip (sMatch.track.position + 1) sMatch.localFile
          (PlaylistMatch._generate_destination_path sMatch ("out").data)], .ok
        [sMatch.localFile, PlaylistMatch._generate_destination_path sMatch ("out").data]) :=
  move_or_copy_skip_idempotent.1 sMatch (("out").data) true false
    [sMatch.localFile, PlaylistMatch._generate_destination_path sMatch ("out").data]
    (Or.inl rfl) (by decide) (by decide)

/-- C10: with both `copy` and `move` false, `move_or_copy` returns at once:
no error, no filesystem probe, no log, and no mutation, whatever the dry-run
flag and whether or not the source exists. -/
theorem move_or_copy_noop_mode (m : PlaylistMatch) (base : List Char) (dryRun : Bool)
    (fs : FS) :
    PlaylistMatch.move_or_copy m base false false dryRun fs = ([], .ok fs) := by
  simp [PlaylistMatch.move_or_copy]

/-- C8 (amended): in dry-run copy or move mode with an existing source,
`move_or_copy` performs the source-existence check and the
destination-existence check, never changes the filesystem, and reports the
operation kind (copy vs. move) and the resolved destination path of the
would-be operation; however, when the destination already exists the dry run
still reports the would-be copy or move — the skip branch is suppressed in
dry-run mode, so the skip a real run would perform is not reported. -/
theorem move_or_copy_dry_run_reports (m : PlaylistMatch) (base : List Char) (c mv : Bool)
    (fs : FS) (hmode : c = true ∨ mv = true) (hsrc : fsExists fs m.localFile = true) :
    PlaylistMatch.move_or_copy m base c mv true fs =
      ([Event.srcCheck m.localFile true,
        Event.destCheck (PlaylistMatch._generate_destination_path m base)
          (fsExists fs (PlaylistMatch._generate_destination_path m base)),
        Event.logWould (if mv = true then FileOp.move else FileOp.copy)
          (m.track.position + 1) m.localFile
          (PlaylistMatch._generate_destination_path m base)], .ok fs) := by
  have hc : ¬(c = false ∧ mv = false) := by
    rcases hmode with h | h <;> simp [h]
  simp [PlaylistMatch.move_or_copy, hc, hsrc]

/-- Witness for C8: a concrete dry-run copy with the destination absent. -/
theorem move_or_copy_dry_run_reports_witness :
    PlaylistMatch.move_or_copy sMatch ("out").data true false true [sMatch.localFile] =
      ([Event.srcCheck sMatch.localFile true,
        Event.destCheck (PlaylistMatch._generate_destination_path sMatch ("out").data)
          (fsExists [sMatch.localFile]
            (PlaylistMatch._generate_destination_path sMatch ("out").data)),
        Event.logWould (if false = true then FileOp.move else FileOp.copy)
          (sMatch.track.position + 1) sMatch.localFile
          (PlaylistMatch._generate_destination_path sMatch ("out").data)], .ok
        [sMatch.localFile]) :=
  move_or_copy_dry_run_reports sMatch (("out").data) true false [sMatch.localFile]
    (Or.inl rfl) (by decide)

/-- Counterexample to C8 as stated: with the destination already present, the
dry run does not report a skip (it reports the would-be copy), although the
corresponding real run skips; so a dry run does not report exactly what a
real run would do in the existing-destination case. -/
theorem dry_run_no_skip_report_counterexample :
    ((PlaylistMatch.move_or_copy sMatch ("out").data true false true
      [sMatch.localFile, PlaylistMatch._generate_destination_path sMatch ("out").data]).1.any
        isSkipEvent) = false ∧
    ((PlaylistMatch.move_or_copy sMatch ("out").data true false false
      [sMatch.localFile, PlaylistMatch._generate_destination_path sMatch ("out").data]).1.any
        isSkipEvent) = true ∧
    (PlaylistMatch.move_or_copy sMatch ("out").data true false true
      [sMatch.localFile, PlaylistMatch._generate_destination_path sMatch ("out").data]).2 =
      .ok [sMatch.localFile, PlaylistMatch._generate_destination_path sMatch ("out").data] := by
  refine ⟨by decide, by decide, rfl⟩

/-- A matched step pairs the processed track itself. -/
theorem verifyStep_matched_track (idx : List (List Char × List (List Char × List Char)))
    (amap : List (List Char × List Char)) (t : Track) (m : PlaylistMatch)
    (h : verifyStep idx amap t = .matched m) : m.track = t := by
  unfold verifyStep at h
  split at h
  · simp at h
  · split at h
    · simp at h
    · split at h
      · simp only [StepResult.matched.injEq] at h
        rw [← h]
      · simp at h

/-- A matched step found its file through the nested matching loops on the
track's index bucket, and that bucket is non-empty. -/
theorem verifyStep_matched_entries (idx : List (List Char × List (List Char × List Char)))
    (amap : List (List Char × List Char)) (t : Track) (m : PlaylistMatch)
    (h : verifyStep idx amap t = .matched m) :
    ∃ entries, mapGet idx t.normalizedName = some entries ∧ entries ≠ [] ∧
      findMatchedFile t.normalizedArtists entries = some m.localFile := by
  unfold verifyStep at h
  split at h
  · simp at h
  next entries heq =>
    split at h
    next he => simp at h
    next he =>
      split at h
      next fp hf =>
        simp only [StepResult.matched.injEq] at h
        exact ⟨entries, heq, he, by rw [← h]; exact hf⟩
      · simp at h

/-- When the verification loop records nothing, its match list pairs the
tracks one for one, in playlist order. -/
theorem processTracks_all_matched (idx : List (List Char × List (List Char × List Char)))
    (amap : List (List Char × List Char)) (tracks : List Track)
    (h1 : (processTracks idx amap tracks).missing = [])
    (h2 : (processTracks idx amap tracks).mismatches = []) :
    (processTracks idx amap tracks).matchList.map PlaylistMatch.track = tracks := by
  induction tracks with
  | nil => rfl
  | cons t rest ih =>
    simp only [processTracks] at h1 h2 ⊢
    rcases hs : verifyStep idx amap t with e | e | m
    · simp [hs] at h1
    · simp [hs] at h2
    · simp only [hs] at h1 h2 ⊢
      simp only [List.map_cons]
      rw [verifyStep_matched_track idx amap t m hs, ih h1 h2]

/-- Every match the verification loop accumulates comes from a matched step
on some playlist track. -/
theorem processTracks_mem (idx : List (List Char × List (List Char × List Char)))
    (amap : List (List Char × List Char)) (tracks : List Track) (m : PlaylistMatch)
    (h : m ∈ (processTracks idx amap tracks).matchList) :
    ∃ t ∈ tracks, verifyStep idx amap t = .matched m := by
  induction tracks with
  | nil => simp [processTracks] at h
  | cons t rest ih =>
    simp only [processTracks] at h
    rcases hs : verifyStep idx amap t with e | e | m0
    · simp only [hs] at h
      obtain ⟨t0, ht0, h0⟩ := ih h
      exact ⟨t0, List.mem_cons_of_mem t ht0, h0⟩
    · simp only [hs] at h
      obtain ⟨t0, ht0, h0⟩ := ih h
      exact ⟨t0, List.mem_cons_of_mem t ht0, h0⟩
    · simp only [hs] at h
      rcases List.mem_cons.mp h with rfl | h
      · exact ⟨t, List.mem_cons_self t rest, hs⟩
      · obtain ⟨t0, ht0, h0⟩ := ih h
        exact ⟨t0, List.mem_cons_of_mem t ht0, h0⟩

/-- Inversion of a successful `verify_playlist` run: the playlist is
non-empty, all three report lists are empty, and the returned list is the
loop's match list. -/
theorem verify_playlist_ok_structure (tracks : List Track) (files : List (List Char))
    (ms : List PlaylistMatch) (h : Playlist.verify_playlist tracks files = .ok ms) :
    ms = (processTracks (buildLocalIndex files).index (build_album_artist_map tracks)
        tracks).matchList ∧
    (processTracks (buildLocalIndex files).index (build_album_artist_map tracks)
        tracks).missing = [] ∧
    (processTracks (buildLocalIndex files).index (build_album_artist_map tracks)
        tracks).mismatches = [] ∧
    (buildLocalIndex files).parsingErrors = [] ∧ tracks ≠ [] := by
  simp only [Playlist.verify_playlist] at h
  by_cases h0 : tracks.length = 0
  · rw [if_pos h0] at h; simp at h
  · rw [if_neg h0] at h
    by_cases hc : (buildLocalIndex files).parsingErrors = [] ∧
        (processTracks (buildLocalIndex files).index (build_album_artist_map tracks)
          tracks).mismatches = [] ∧
        (processTracks (buildLocalIndex files).index (build_album_artist_map tracks)
          tracks).missing = []
    · rw [if_neg (not_not_intro hc)] at h
      simp only [Except.ok.injEq] at h
      exact ⟨h.symm, hc.2.2, hc.2.1, hc.1, fun hnil => h0 (by rw [hnil]; rfl)⟩
    · rw [if_pos hc] at h; simp at h

/-- C9: whenever `verify_playlist` returns normally, the returned list holds
exactly one Match per playlist track, in playlist order: mapping each Match
to its track gives back the playlist, and the lengths agree. -/
theorem verify_ok_matches_playlist_order (tracks : List Track) (files : List (List Char))
    (ms : List PlaylistMatch) (h : Playlist.verify_playlist tracks files = .ok ms) :
    ms.map PlaylistMatch.track = tracks ∧ ms.length = tracks.length := by
  obtain ⟨hms, hmiss, hmm, _, _⟩ := verify_playlist_ok_structure tracks files ms h
  have hmap : ms.map PlaylistMatch.track = tracks := by
    rw [hms]
    exact processTracks_all_matched _ _ tracks hmiss hmm
  refine ⟨hmap, ?_⟩
  calc ms.length = (ms.map PlaylistMatch.track).length := (List.length_map ms _).symm
    _ = tracks.length := by rw [hmap]

/-- Witness for C9: a one-track playlist matched against two local files. -/
theorem verify_ok_matches_playlist_order_witness :
    ([(⟨sTrack, ("A - S.mp3").data, ("A & B").data⟩ : PlaylistMatch)].map
      PlaylistMatch.track = [sTrack]) ∧
    ([(⟨sTrack, ("A - S.mp3").data, ("A & B").data⟩ : PlaylistMatch)].length =
      [sTrack].length) :=
  verify_ok_matches_playlist_order [sTrack] [("B - S.mp3").data, ("A - S.mp3").data]
    [⟨sTrack, ("A - S.mp3").data, ("A & B").data⟩] (by rfl)

/-- Unfolding equation of the nested matching loops at a cons cell. -/
theorem findMatchedFile_cons (a : List Char) (rest : List (List Char))
    (entries : List (List Char × List Char)) :
    findMatchedFile (a :: rest) entries =
      match scanEntries a entries with
      | some fp => some fp
      | none => findMatchedFile rest entries := rfl

/-- When an artist has no candidate, the declarative matcher skips it. -/
theorem artistPriorityMatch_cons_none (a : List Char) (rest : List (List Char))
    (entries : List (List Char × List Char)) (hs : scanEntries a entries = none) :
    artistPriorityMatch (a :: rest) entries = artistPriorityMatch rest entries := by
  unfold artistPriorityMatch
  rw [List.find?_cons_of_neg _ (by simp [hs])]

/-- When an artist has a first candidate, the declarative matcher returns it. -/
theorem artistPriorityMatch_cons_some (a : List Char) (rest : List (List Char))
    (entries : List (List Char × List Char)) (fp : List Char)
    (hs : scanEntries a entries = some fp) :
    artistPriorityMatch (a :: rest) entries = some fp := by
  unfold artistPriorityMatch
  rw [List.find?_cons_of_pos _ (by simp [hs])]
  simp [hs]

/-- The nested matching loops equal their declarative description: the first
playlist artist that has any candidate wins, with that artist's first
candidate in scan order. -/
theorem findMatchedFile_eq_artistPriority (artists : List (List Char))
    (entries : List (List Char × List Char)) :
    findMatchedFile artists entries = artistPriorityMatch artists entries := by
  induction artists with
  | nil => rfl
  | cons a rest ih =>
    rcases hs : scanEntries a entries with _ | fp
    · rw [findMatchedFile_cons, hs, artistPriorityMatch_cons_none a rest entries hs]
      exact ih
    · rw [findMatchedFile_cons, hs, artistPriorityMatch_cons_some a rest entries fp hs]

/-- Counterexample to C1 as stated: a track titled S by artists A then B,
with local candidates scanned in the order (b, `B - S.mp3`), (a, `A - S.mp3`).
The spec's first candidate whose artist equals any track artist is
`B - S.mp3`, yet the code matches `A - S.mp3`; and reversing the track's
artist list changes the matched file, so the choice depends on the artist
order. -/
theorem first_candidate_match_counterexample :
    Playlist.verify_playlist [sTrack] [("B - S.mp3").data, ("A - S.mp3").data] =
      .ok [⟨sTrack, ("A - S.mp3").data, ("A & B").data⟩] ∧
    mapGet (buildLocalIndex [("B - S.mp3").data, ("A - S.mp3").data]).index
        sTrack.normalizedName =
      some [(("b").data, ("B - S.mp3").data), (("a").data, ("A - S.mp3").data)] ∧
    specFirstCandidateMatch sTrack.normalizedArtists
        [(("b").data, ("B - S.mp3").data), (("a").data, ("A - S.mp3").data)] =
      some (("B - S.mp3").data) ∧
    (("A - S.mp3").data ≠ ("B - S.mp3").data) ∧
    Playlist.verify_playlist [sTrackRev] [("B - S.mp3").data, ("A - S.mp3").data] =
      .ok [⟨sTrackRev, ("B - S.mp3").data, ("A & B").data⟩] :=
  ⟨rfl, rfl, rfl, by decide, rfl⟩

/-- C1 (amended): for every match a reconciliation run produces, the matched
file is determined by iterating the track's normalized artists in artist-list
order and scanning the candidate bucket in scan order for each: the first
artist with any candidate wins, with that artist's first candidate.  The
choice can therefore depend on the order of the track's artist list. -/
theorem verify_match_artist_priority (tracks : List Track) (files : List (List Char))
    (ms : List PlaylistMatch) (m : PlaylistMatch) (entries : List (List Char × List Char))
    (hok : Playlist.verify_playlist tracks files = .ok ms) (hm : m ∈ ms)
    (hent : mapGet (buildLocalIndex files).index m.track.normalizedName = some entries) :
    entries ≠ [] ∧ artistPriorityMatch m.track.normalizedArtists entries = some m.localFile := by
  obtain ⟨hms, _, _, _, _⟩ := verify_playlist_ok_structure tracks files ms hok
  rw [hms] at hm
  obtain ⟨t, _, hstep⟩ := processTracks_mem _ _ tracks m hm
  have htr := verifyStep_matched_track _ _ t m hstep
  obtain ⟨entries2, hent2, hne2, hfind2⟩ := verifyStep_matched_entries _ _ t m hstep
  rw [← htr, hent] at hent2
  injection hent2 with hent3
  subst hent3
  refine ⟨hne2, ?_⟩
  rw [htr, ← findMatchedFile_eq_artistPriority]
  exact hfind2

/-- Witness for C1: the concrete artist-priority match of the sample run. -/
theorem verify_match_artist_priority_witness :
    ([(("b").data, ("B - S.mp3").data), (("a").data, ("A - S.mp3").data)] ≠
      ([] : List (List Char × List Char))) ∧
    artistPriorityMatch
        (⟨sTrack, ("A - S.mp3").data, ("A & B").data⟩ : PlaylistMatch).track.normalizedArtists
        [(("b").data, ("B - S.mp3").data), (("a").data, ("A - S.mp3").data)] =
      some (⟨sTrack, ("A - S.mp3").data, ("A & B").data⟩ : PlaylistMatch).localFile :=
  verify_match_artist_priority [sTrack] [("B - S.mp3").data, ("A - S.mp3").data]
    [⟨sTrack, ("A - S.mp3").data, ("A & B").data⟩]
    (⟨sTrack, ("A - S.mp3").data, ("A & B").data⟩)
    [(("b").data, ("B - S.mp3").data), (("a").data, ("A - S.mp3").data)]
    (by rfl) (by simp) (by rfl)

/-- Lookup after a bucket update: the updated key's bucket gains the entry at
its end, every other key is untouched. -/
theorem mapGet_addEntry (idx : List (List Char × List (List Char × List Char)))
    (k : List Char) (e : List Char × List Char) (k2 : List Char) :
    mapGet (addEntry idx k e) k2 =
      if k = k2 then some ((mapGet idx k2).getD [] ++ [e]) else mapGet idx k2 := by
  induction idx with
  | nil =>
    simp only [addEntry, mapGet]
    by_cases h : k = k2 <;> simp [h]
  | cons p rest ih =>
    obtain ⟨k0, es⟩ := p
    simp only [addEntry]
    by_cases h0 : k0 = k
    · subst h0
      rw [if_pos rfl]
      by_cases h2 : k0 = k2
      · subst h2
        simp [mapGet]
      · simp [mapGet, h2]
    · rw [if_neg h0]
      by_cases h2 : k0 = k2
      · subst h2
        have hk : ¬(k = k0) := fun hh => h0 hh.symm
        simp [mapGet, hk]
      · simp [mapGet, h2, ih]

/-- Adding a correctly parsed entry preserves the index invariant. -/
theorem indexInv_addEntry (idx : List (List Char × List (List Char × List Char)))
    (k : List Char) (a f : List Char) (hinv : IndexInv idx)
    (hf : extract_artist_and_track f = .ok (a, k)) : IndexInv (addEntry idx k (a, f)) := by
  intro k2 es hget e he
  rw [mapGet_addEntry] at hget
  by_cases hk : k = k2
  · subst hk
    rw [if_pos rfl] at hget
    injection hget with hes
    rw [← hes] at he
    rcases List.mem_append.mp he with h1 | h1
    · rcases hg2 : mapGet idx k with _ | es0
      · rw [hg2] at h1; simp at h1
      · rw [hg2] at h1; exact hinv k es0 hg2 e h1
    · rcases List.mem_singleton.mp h1 with rfl
      exact hf
  · rw [if_neg hk] at hget
    exact hinv k2 es hget e he

/-- The index-building fold preserves the index invariant. -/
theorem foldl_indexStep_inv (files : List (List Char)) :
    ∀ acc : LocalIndex, IndexInv acc.index → IndexInv (files.foldl indexStep acc).index := by
  induction files with
  | nil => intro acc h; exact h
  | cons f rest ih =>
    intro acc h
    rw [List.foldl_cons]
    apply ih
    unfold indexStep
    rcases hx : extract_artist_and_track f with e | pr
    · exact h
    · obtain ⟨a, t⟩ := pr
      simpa using indexInv_addEntry acc.index t a f h hx

/-- The built local-file index satisfies the bucket invariant. -/
theorem buildLocalIndex_inv (files : List (List Char)) : IndexInv (buildLocalIndex files).index := by
  unfold buildLocalIndex
  apply foldl_indexStep_inv
  intro k es hget e he
  simp [mapGet] at hget

/-- The parsing-error accumulator of the fold, in closed form. -/
theorem foldl_indexStep_parsingErrors (files : List (List Char)) :
    ∀ acc : LocalIndex,
      (files.foldl indexStep acc).parsingErrors =
        acc.parsingErrors ++ files.filterMap parseFailure := by
  induction files with
  | nil => intro acc; simp
  | cons f rest ih =>
    intro acc
    rw [List.foldl_cons, ih]
    unfold indexStep parseFailure
    rcases hx : extract_artist_and_track f with e | pr
    · simp [hx, List.filterMap_cons]
    · simp [hx, List.filterMap_cons]

/-- The parsing failures of a run are exactly the files that fail to parse,
in scan order. -/
theorem buildLocalIndex_parsingErrors (files : List (List Char)) :
    (buildLocalIndex files).parsingErrors = files.filterMap parseFailure := by
  unfold buildLocalIndex
  rw [foldl_indexStep_parsingErrors]
  rfl

/-- The candidate scan returns a file stored in the scanned bucket. -/
theorem scanEntries_mem (a : List Char) (entries : List (List Char × List Char))
    (fp : List Char) (h : scanEntries a entries = some fp) : ∃ e ∈ entries, e.2 = fp := by
  induction entries with
  | nil => simp [scanEntries] at h
  | cons p rest ih =>
    obtain ⟨la, f0⟩ := p
    simp only [scanEntries] at h
    by_cases ha : a = la
    · rw [if_pos ha] at h
      injection h with h
      exact ⟨(la, f0), List.mem_cons_self _ _, h⟩
    · rw [if_neg ha] at h
      obtain ⟨e, he, h2⟩ := ih h
      exact ⟨e, List.mem_cons_of_mem _ he, h2⟩

/-- The nested matching loops return a file stored in the bucket. -/
theorem findMatchedFile_mem (artists : List (List Char))
    (entries : List (List Char × List Char)) (fp : List Char)
    (h : findMatchedFile artists entries = some fp) : ∃ e ∈ entries, e.2 = fp := by
  induction artists with
  | nil => simp [findMatchedFile] at h
  | cons a rest ih =>
    rw [findMatchedFile_cons] at h
    rcases hs : scanEntries a entries with _ | fp0
    · rw [hs] at h
      exact ih h
    · rw [hs] at h
      injection h with h
      rw [← h]
      exact scanEntries_mem a entries fp0 hs

/-- In a successful run, every match's file parses back to the normalized
name of the match's own track. -/
theorem verify_ok_match_key (tracks : List Track) (files : List (List Char))
    (ms : List PlaylistMatch) (m : PlaylistMatch)
    (hok : Playlist.verify_playlist tracks files = .ok ms) (hm : m ∈ ms) :
    parsedTrackKey m.localFile = m.track.normalizedName := by
  obtain ⟨hms, _, _, _, _⟩ := verify_playlist_ok_structure tracks files ms hok
  rw [hms] at hm
  obtain ⟨t, _, hstep⟩ := processTracks_mem _ _ tracks m hm
  have htr := verifyStep_matched_track _ _ t m hstep
  obtain ⟨entries, hent, _, hfind⟩ := verifyStep_matched_entries _ _ t m hstep
  obtain ⟨e, he, he2⟩ := findMatchedFile_mem _ _ _ hfind
  have hkey := buildLocalIndex_inv files t.normalizedName entries hent e he
  rw [htr]
  unfold parsedTrackKey
  rw [← he2, hkey]

/-- Counterexample to C3 as stated: two distinct playlist entries with the
same title by the same artist both match the single local file
`X - Song A.mp3`, so one local file is referenced by two Matches (and the run
still returns normally). -/
theorem local_file_shared_counterexample :
    Playlist.verify_playlist [dupTrack0, dupTrack1] [("X - Song A.mp3").data] =
      .ok [⟨dupTrack0, ("X - Song A.mp3").data, ("X").data⟩,
        ⟨dupTrack1, ("X - Song A.mp3").data, ("X").data⟩] ∧
    dupTrack0 ≠ dupTrack1 :=
  ⟨rfl, by decide⟩

/-- C3 (amended): each playlist track appears in at most one Match (the
match list pairs the tracks one for one); a local file can be shared by the
Matches of two tracks only when the tracks have the same normalized name, so
whenever the playlist tracks' normalized names are pairwise distinct, each
local file appears in at most one Match. -/
theorem verify_ok_unique_files (tracks : List Track) (files : List (List Char))
    (ms : List PlaylistMatch)
    (hok : Playlist.verify_playlist tracks files = .ok ms)
    (hnd : (tracks.map Track.normalizedName).Nodup) :
    (ms.map PlaylistMatch.localFile).Nodup ∧ ms.map PlaylistMatch.track = tracks := by
  obtain ⟨hms, hmiss, hmm, _, _⟩ := verify_playlist_ok_structure tracks files ms hok
  have htracks : ms.map PlaylistMatch.track = tracks := by
    rw [hms]
    exact processTracks_all_matched _ _ _ hmiss hmm
  refine ⟨?_, htracks⟩
  have hkeys : (ms.map PlaylistMatch.localFile).map parsedTrackKey =
      tracks.map Track.normalizedName := by
    rw [List.map_map]
    have hcong : ∀ m ∈ ms, (parsedTrackKey ∘ PlaylistMatch.localFile) m =
        (Track.normalizedName ∘ PlaylistMatch.track) m := fun m hm =>
      verify_ok_match_key tracks files ms m hok hm
    rw [List.map_congr_left hcong, ← List.map_map, htracks]
  have hnd2 : ((ms.map PlaylistMatch.localFile).map parsedTrackKey).Nodup := by
    rw [hkeys]; exact hnd
  exact hnd2.of_map _

/-- Witness for C3: the sample single-track run has pairwise distinct files
and pairs the track list exactly. -/
theorem verify_ok_unique_files_witness :
    (([(⟨sTrack, ("A - S.mp3").data, ("A & B").data⟩ : PlaylistMatch)].map
      PlaylistMatch.localFile).Nodup) ∧
    ([(⟨sTrack, ("A - S.mp3").data, ("A & B").data⟩ : PlaylistMatch)].map
      PlaylistMatch.track = [sTrack]) :=
  verify_ok_unique_files [sTrack] [("B - S.mp3").data, ("A - S.mp3").data]
    [⟨sTrack, ("A - S.mp3").data, ("A & B").data⟩] (by rfl) (by simp)

/-- Counterexample to C2 as stated: for an empty playlist all three
accumulated lists are empty, yet `verify_playlist` does not return the match
list — the summary logging's match-rate computation divides by the number of
playlist tracks and raises `ZeroDivisionError` first. -/
theorem empty_playlist_zero_division_counterexample :
    Playlist.verify_playlist [] [("A - B.mp3").data] = .error .zeroDivision ∧
    (buildLocalIndex [("A - B.mp3").data]).parsingErrors = [] ∧
    (processTracks (buildLocalIndex [("A - B.mp3").data]).index
      (build_album_artist_map []) []).mismatches = [] ∧
    (processTracks (buildLocalIndex [("A - B.mp3").data]).index
      (build_album_artist_map []) []).missing = [] :=
  ⟨rfl, rfl, rfl, rfl⟩

/-- C2 (amended): provided the playlist has at least one track,
`verify_playlist` raises the aggregated verification error if and only if at
least one of the three accumulated lists (parsing failures, artist
mismatches, missing tracks) is non-empty, and the raised error carries all
three lists in full — the parsing failures being exactly the files that fail
to parse, in scan order; when all three lists are empty it returns the
ordered match list.  (With an empty playlist the call instead dies in a
division by zero, see the counterexample.) -/
theorem verify_error_iff (tracks : List Track) (files : List (List Char))
    (hne : tracks ≠ []) :
    (Playlist.verify_playlist tracks files =
        .error (.verification (files.filterMap parseFailure)
          (processTracks (buildLocalIndex files).index (build_album_artist_map tracks)
            tracks).mismatches
          (processTracks (buildLocalIndex files).index (build_album_artist_map tracks)
            tracks).missing) ↔
      ¬(files.filterMap parseFailure = [] ∧
        (processTracks (buildLocalIndex files).index (build_album_artist_map tracks)
          tracks).mismatches = [] ∧
        (processTracks (buildLocalIndex files).index (build_album_artist_map tracks)
          tracks).missing = [])) ∧
    ((files.filterMap parseFailure = [] ∧
        (processTracks (buildLocalIndex files).index (build_album_artist_map tracks)
          tracks).mismatches = [] ∧
        (processTracks (buildLocalIndex files).index (build_album_artist_map tracks)
          tracks).missing = []) →
      Playlist.verify_playlist tracks files =
        .ok (processTracks (buildLocalIndex files).index (build_album_artist_map tracks)
          tracks).matchList) := by
  have hlen : ¬(tracks.length = 0) := by
    cases tracks with
    | nil => exact absurd rfl hne
    | cons t rest => simp
  have hP := buildLocalIndex_parsingErrors files
  have hok : (files.filterMap parseFailure = [] ∧
      (processTracks (buildLocalIndex files).index (build_album_artist_map tracks)
        tracks).mismatches = [] ∧
      (processTracks (buildLocalIndex files).index (build_album_artist_map tracks)
        tracks).missing = []) →
      Playlist.verify_playlist tracks files =
        .ok (processTracks (buildLocalIndex files).index (build_album_artist_map tracks)
          tracks).matchList := by
    intro hall
    simp only [Playlist.verify_playlist]
    rw [if_neg hlen, if_neg (not_not_intro ⟨by rw [hP]; exact hall.1, hall.2.1, hall.2.2⟩)]
  refine ⟨⟨?_, ?_⟩, hok⟩
  · intro h hall
    rw [hok hall] at h
    simp at h
  · intro hnall
    simp only [Playlist.verify_playlist]
    have hnall2 : ¬((buildLocalIndex files).parsingErrors = [] ∧
        (processTracks (buildLocalIndex files).index (build_album_artist_map tracks)
          tracks).mismatches = [] ∧
        (processTracks (buildLocalIndex files).index (build_album_artist_map tracks)
          tracks).missing = []) := by
      rw [hP]; exact hnall
    rw [if_neg hlen, if_pos hnall2, hP]

/-- Witness for C2: a one-track playlist against a single unparsable file
raises the aggregated error carrying the parsing failure and the missing
track. -/
theorem verify_error_iff_witness :
    Playlist.verify_playlist [sTrack] [("noSep.mp3").data] =
      .error (.verification (([("noSep.mp3").data]).filterMap parseFailure)
        (processTracks (buildLocalIndex [("noSep.mp3").data]).index
          (build_album_artist_map [sTrack]) [sTrack]).mismatches
        (processTracks (buildLocalIndex [("noSep.mp3").data]).index
          (build_album_artist_map [sTrack]) [sTrack]).missing) :=
  (verify_error_iff [sTrack] [("noSep.mp3").data] (by simp)).1.mpr (by decide)

/-- A map whose function fixes every member is the identity. -/
theorem mapIdOn {f : Char → Char} (l : List Char) (h : ∀ c ∈ l, f c = c) : l.map f = l := by
  induction l with
  | nil => rfl
  | cons c rest ih =>
    simp only [List.map_cons]
    rw [h c (List.mem_cons_self c rest), ih (fun x hx => h x (List.mem_cons_of_mem c hx))]

/-- Round trip of `Char.ofNat` through `Char.toNat` on valid code points. -/
theorem charOfNat_toNat (n : Nat) (hv : n.isValidChar) : (Char.ofNat n).toNat = n := by
  unfold Char.ofNat
  rw [dif_pos hv]
  unfold Char.ofNatAux
  show (UInt32.ofNat' n _).toNat = n
  unfold UInt32.ofNat'
  rcases hv with h | ⟨h1, h2⟩ <;> simp [UInt32.toNat]

/-- The lowercase fold never produces an ASCII capital. -/
theorem pyLower_not_upper (c : Char) :
    ¬(65 ≤ (pyLower c).toNat ∧ (pyLower c).toNat ≤ 90) := by
  unfold pyLower
  by_cases h : 65 ≤ c.toNat ∧ c.toNat ≤ 90
  · rw [if_pos h]
    have hv : (c.toNat + 32).isValidChar := Or.inl (by omega)
    rw [charOfNat_toNat _ hv]
    omega
  · rw [if_neg h]
    exact h

/-- The lowercase fold fixes every character that is not an ASCII capital. -/
theorem pyLower_fixed_of_not_upper (c : Char)
    (h : ¬(65 ≤ c.toNat ∧ c.toNat ≤ 90)) : pyLower c = c := by
  unfold pyLower
  rw [if_neg h]

/-- The ASCII lowercase fold is idempotent. -/
theorem pyLower_idem (c : Char) : pyLower (pyLower c) = pyLower c :=
  pyLower_fixed_of_not_upper _ (pyLower_not_upper c)

/-- Every character a decomposition-table entry emits is fixed by the
lowercase fold. -/
theorem decompTable_lower : ∀ p ∈ decompTable, ∀ c ∈ p.2, pyLower c = c := by
  decide

/-- A successful association-list lookup returns a stored value. -/
theorem lookup_mem {α β : Type} [BEq α] (l : List (α × β)) (k : α) (v : β)
    (h : l.lookup k = some v) : ∃ p ∈ l, p.2 = v := by
  induction l with
  | nil => simp [List.lookup] at h
  | cons p rest ih =>
    rw [List.lookup_cons] at h
    by_cases hk : (k == p.1) = true
    · simp only [hk] at h
      injection h with h
      exact ⟨p, List.mem_cons_self p rest, h⟩
    · have hk2 : (k == p.1) = false := by simpa using hk
      simp only [hk2] at h
      obtain ⟨q, hq, h2⟩ := ih h
      exact ⟨q, List.mem_cons_of_mem p hq, h2⟩

/-- Every character of the NFKD-and-ASCII fold is ASCII. -/
theorem nfkdAscii_mem_ascii (l : List Char) (c : Char) (h : c ∈ nfkdAscii l) :
    c.toNat < 128 := by
  unfold nfkdAscii at h
  have := List.mem_filter.mp h
  simpa using this.2

/-- The NFKD-and-ASCII fold is the identity on ASCII strings. -/
theorem nfkdAscii_ascii_id (l : List Char) (h : ∀ c ∈ l, c.toNat < 128) :
    nfkdAscii l = l := by
  induction l with
  | nil => rfl
  | cons c rest ih =>
    have hc := h c (List.mem_cons_self c rest)
    have hrest := ih (fun x hx => h x (List.mem_cons_of_mem c hx))
    unfold nfkdAscii at hrest ⊢
    simp only [List.map_cons, List.flatten_cons, List.filter_append]
    rw [hrest]
    unfold decompChar
    rw [if_pos hc]
    simp [hc]

/-- After the lowercase fold and the NFKD-and-ASCII fold, every character is
fixed by the lowercase fold. -/
theorem nfkdAscii_pyLower_fixed (x : List Char) (c : Char)
    (h : c ∈ nfkdAscii (x.map pyLower)) : pyLower c = c := by
  unfold nfkdAscii at h
  obtain ⟨hmem, hlt⟩ := List.mem_filter.mp h
  simp only [decide_eq_true_eq] at hlt
  obtain ⟨l0, hl0, hc0⟩ := List.mem_flatten.mp hmem
  obtain ⟨d, hd, rfl⟩ := List.mem_map.mp hl0
  obtain ⟨x0, _, rfl⟩ := List.mem_map.mp hd
  unfold decompChar at hc0
  by_cases hascii : (pyLower x0).toNat < 128
  · rw [if_pos hascii] at hc0
    rcases List.mem_singleton.mp hc0 with rfl
    exact pyLower_idem x0
  · rw [if_neg hascii] at hc0
    rcases hlook : decompTable.lookup (pyLower x0) with _ | ds
    · rw [hlook] at hc0
      rcases List.mem_singleton.mp hc0 with rfl
      exact absurd hlt hascii
    · rw [hlook] at hc0
      obtain ⟨p, hp, rfl⟩ := lookup_mem decompTable (pyLower x0) ds hlook
      exact decompTable_lower p hp c hc0

/-- Every character the whitespace collapse emits is either the replacement
space or a non-whitespace character of the input. -/
theorem collapseAux_chars : ∀ (l : List Char) (b : Bool) (c : Char),
    c ∈ collapseAux b l → c = ' ' ∨ (c ∈ l ∧ isSpaceChar c = false) := by
  intro l
  induction l with
  | nil => intro b c h; simp [collapseAux] at h
  | cons c0 rest ih =>
    intro b c h
    unfold collapseAux at h
    by_cases hc0 : isSpaceChar c0 = true
    · rw [if_pos hc0] at h
      by_cases hb : b = true
      · rw [if_pos hb] at h
        rcases ih true c h with h1 | ⟨h1, h2⟩
        · exact Or.inl h1
        · exact Or.inr ⟨List.mem_cons_of_mem c0 h1, h2⟩
      · rw [if_neg hb] at h
        rcases List.mem_cons.mp h with rfl | h
        · exact Or.inl rfl
        · rcases ih true c h with h1 | ⟨h1, h2⟩
          · exact Or.inl h1
          · exact Or.inr ⟨List.mem_cons_of_mem c0 h1, h2⟩
    · rw [if_neg hc0] at h
      rcases List.mem_cons.mp h with rfl | h
      · exact Or.inr ⟨List.mem_cons_self c rest, by simpa using hc0⟩
      · rcases ih false c h with h1 | ⟨h1, h2⟩
        · exact Or.inl h1
        · exact Or.inr ⟨List.mem_cons_of_mem c0 h1, h2⟩

/-- With the flag set, the collapse never emits a leading space. -/
theorem collapseAux_true_head : ∀ (l : List Char) (c : Char) (w : List Char),
    collapseAux true l = c :: w → isSpaceChar c = false := by
  intro l
  induction l with
  | nil => intro c w h; simp [collapseAux] at h
  | cons c0 rest ih =>
    intro c w h
    unfold collapseAux at h
    by_cases hc0 : isSpaceChar c0 = true
    · rw [if_pos hc0, if_pos rfl] at h
      exact ih c w h
    · rw [if_neg hc0] at h
      injection h with h1 _
      rw [← h1]
      simpa using hc0

/-- The canonical-whitespace predicate passes to the tail. -/
theorem spacedOK_tail (c : Char) (rest : List Char) (h : spacedOK (c :: rest)) :
    spacedOK rest := by
  cases rest with
  | nil => trivial
  | cons d rest2 => exact h.2

/-- The whitespace collapse produces canonical whitespace. -/
theorem collapseAux_spacedOK : ∀ (l : List Char) (b : Bool), spacedOK (collapseAux b l) := by
  intro l
  induction l with
  | nil => intro b; trivial
  | cons c0 rest ih =>
    intro b
    unfold collapseAux
    by_cases hc0 : isSpaceChar c0 = true
    · rw [if_pos hc0]
      by_cases hb : b = true
      · rw [if_pos hb]
        exact ih true
      · rw [if_neg hb]
        rcases hw : collapseAux true rest with _ | ⟨d, w⟩
        · exact fun _ => rfl
        · exact ⟨fun _ => ⟨rfl, collapseAux_true_head rest d w hw⟩, hw ▸ ih true⟩
    · rw [if_neg hc0]
      rcases hw : collapseAux false rest with _ | ⟨d, w⟩
      · exact fun hsp => absurd hsp (by simpa using hc0)
      · exact ⟨fun hsp => absurd hsp (by simpa using hc0), hw ▸ ih false⟩

/-- Dropping leading whitespace preserves canonical whitespace. -/
theorem spacedOK_dropWhile (l : List Char) (h : spacedOK l) :
    spacedOK (l.dropWhile isSpaceChar) := by
  induction l with
  | nil => trivial
  | cons c rest ih =>
    rw [List.dropWhile_cons]
    by_cases hc : isSpaceChar c = true
    · rw [if_pos hc]
      exact ih (spacedOK_tail c rest h)
    · rw [if_neg hc]
      exact h

/-- The trailing-whitespace strip keeps the head of a non-empty result. -/
theorem stripTrail_head (l : List Char) (c : Char) (w : List Char)
    (h : stripTrail l = c :: w) : ∃ ys, l = c :: ys := by
  cases l with
  | nil => simp [stripTrail] at h
  | cons c0 rest =>
    unfold stripTrail at h
    split at h
    · simp at h
    · injection h with h1 _
      exact ⟨rest, by rw [h1]⟩

/-- The trailing-whitespace strip preserves canonical whitespace. -/
theorem spacedOK_stripTrail (l : List Char) (h : spacedOK l) :
    spacedOK (stripTrail l) := by
  induction l with
  | nil => trivial
  | cons c rest ih =>
    unfold stripTrail
    split
    · trivial
    next hne =>
      have hr := ih (spacedOK_tail c rest h)
      rcases hw : stripTrail rest with _ | ⟨e, r2⟩
      · intro hsp
        exact absurd ⟨hw, hsp⟩ hne
      · obtain ⟨ys, hys⟩ := stripTrail_head rest e r2 hw
        refine ⟨fun hsp => ?_, hw ▸ hr⟩
        subst hys
        exact h.1 hsp

/-- The trailing-whitespace strip leaves no whitespace at the end. -/
theorem stripTrail_last (l : List Char) (c : Char)
    (h : (stripTrail l).getLast? = some c) : isSpaceChar c = false := by
  induction l with
  | nil => simp [stripTrail] at h
  | cons c0 rest ih =>
    unfold stripTrail at h
    split at h
    · simp at h
    next hne =>
      rcases hw : stripTrail rest with _ | ⟨e, r2⟩
      · rw [hw] at h hne
        simp at h
        rw [← h]
        by_cases hc : isSpaceChar c0 = true
        · exact absurd ⟨rfl, hc⟩ hne
        · simpa using hc
      · rw [hw] at h
        rw [List.getLast?_cons_cons] at h
        exact ih (by rw [hw]; exact h)

/-- Dropping leading whitespace leaves no whitespace at the head. -/
theorem dropWhile_head_not_space (l : List Char) (c : Char)
    (h : (l.dropWhile isSpaceChar).head? = some c) : isSpaceChar c = false := by
  induction l with
  | nil => simp at h
  | cons c0 rest ih =>
    rw [List.dropWhile_cons] at h
    by_cases hc : isSpaceChar c0 = true
    · rw [if_pos hc] at h
      exact ih h
    · rw [if_neg hc] at h
      simp at h
      rw [← h]
      simpa using hc

/-- The whitespace collapse fixes canonical-whitespace strings (when the flag
is set, the head must additionally not be whitespace). -/
theorem collapseAux_fixed : ∀ (l : List Char), spacedOK l →
    ∀ b : Bool, (b = true → ∀ c, l.head? = some c → isSpaceChar c = false) →
    collapseAux b l = l := by
  intro l
  induction l with
  | nil => intro _ b _; rfl
  | cons c rest ih =>
    intro hsp b hb
    unfold collapseAux
    by_cases hc : isSpaceChar c = true
    · have hbf : b = false := by
        cases b with
        | false => rfl
        | true => exact absurd (hb rfl c rfl) (by simp [hc])
      subst hbf
      rw [if_pos hc, if_neg (by simp)]
      have hce : c = ' ' := by
        cases rest with
        | nil => exact hsp hc
        | cons d rest2 => exact (hsp.1 hc).1
      have hrest : collapseAux true rest = rest := by
        apply ih (spacedOK_tail c rest hsp)
        intro _ c2 hc2
        cases rest with
        | nil => simp at hc2
        | cons d rest2 =>
          simp at hc2
          rw [← hc2]
          exact (hsp.1 hc).2
      rw [hce, hrest]
    · rw [if_neg hc]
      rw [ih (spacedOK_tail c rest hsp) false (by simp)]

/-- Dropping leading whitespace fixes strings with a non-whitespace head. -/
theorem dropWhile_fixed (l : List Char)
    (h : ∀ c, l.head? = some c → isSpaceChar c = false) :
    l.dropWhile isSpaceChar = l := by
  cases l with
  | nil => rfl
  | cons c rest =>
    rw [List.dropWhile_cons, if_neg (by simp [h c rfl])]

/-- The trailing strip fixes strings with no whitespace at the end. -/
theorem stripTrail_fixed (l : List Char)
    (h : ∀ c, l.getLast? = some c → isSpaceChar c = false) : stripTrail l = l := by
  induction l with
  | nil => rfl
  | cons c rest ih =>
    unfold stripTrail
    cases rest with
    | nil =>
      rw [if_neg (fun hand => absurd (h c rfl) (by simp [hand.2]))]
      rfl
    | cons d rest2 =>
      have hr : stripTrail (d :: rest2) = d :: rest2 :=
        ih (fun c2 hc2 => h c2 (by rw [List.getLast?_cons_cons]; exact hc2))
      rw [hr, if_neg (fun hand => absurd hand.1 (by simp))]

/-- Characters survive the trailing strip only from the input. -/
theorem stripTrail_subset (l : List Char) (c : Char) (h : c ∈ stripTrail l) : c ∈ l := by
  induction l with
  | nil => simp [stripTrail] at h
  | cons c0 rest ih =>
    unfold stripTrail at h
    split at h
    · simp at h
    · rcases List.mem_cons.mp h with rfl | h
      · exact List.mem_cons_self _ _
      · exact List.mem_cons_of_mem c0 (ih h)

/-- Character-level description of the normalizer's output: every character
is fixed by the lowercase fold, is ASCII, is not a quote, passes the keep
filter, is not an underscore, and is a plain space if whitespace at all. -/
theorem norm_char_spec (x : List Char) (c : Char) (hc : c ∈ normalize_name x) :
    pyLower c = c ∧ c.toNat < 128 ∧ c ≠ dquote ∧ c ≠ squote ∧
    (isWordChar c || isSpaceChar c || c == '-' || c == '(' || c == ')') = true ∧
    c ≠ '_' ∧ (isSpaceChar c = true → c = ' ') := by
  simp only [normalize_name, stripWS, collapseWS] at hc
  have hc2 := (List.dropWhile_sublist _).subset (stripTrail_subset _ c hc)
  rcases collapseAux_chars _ false c hc2 with rfl | ⟨hc3, hns⟩
  · exact ⟨by decide, by decide, by decide, by decide, by decide, by decide, fun _ => rfl⟩
  · obtain ⟨c4, hc4, hceq⟩ := List.mem_map.mp hc3
    by_cases h4 : c4 = '_'
    · rw [if_pos h4] at hceq
      rw [← hceq] at hns
      simp [isSpaceChar] at hns
    · rw [if_neg h4] at hceq
      subst hceq
      obtain ⟨hc5, hkeep⟩ := List.mem_filter.mp hc4
      obtain ⟨c2, hc6, hceq2⟩ := List.mem_map.mp hc5
      by_cases hq : c2 = dquote ∨ c2 = squote
      · rw [if_pos hq] at hceq2
        exact absurd hceq2.symm h4
      · rw [if_neg hq] at hceq2
        subst hceq2
        exact ⟨nfkdAscii_pyLower_fixed x c2 hc6, nfkdAscii_mem_ascii _ c2 hc6,
          fun h => hq (Or.inl h), fun h => hq (Or.inr h), hkeep, h4,
          fun hsp => absurd hsp (by simp [hns])⟩

/-- A string on which every stage of the normalizer is the identity is a
fixed point of the normalizer. -/
theorem normalize_name_fixed (y : List Char)
    (h1 : y.map pyLower = y)
    (h2 : nfkdAscii y = y)
    (h3 : y.map (fun c => if c = dquote ∨ c = squote then '_' else c) = y)
    (h4 : y.filter (fun c => isWordChar c || isSpaceChar c || c == '-' || c == '(' || c == ')') = y)
    (h5 : y.map (fun c => if c = '_' then ' ' else c) = y)
    (h6 : collapseWS y = y)
    (h7 : stripWS y = y) :
    normalize_name y = y := by
  simp only [normalize_name]
  rw [h1, h2, h3, h4, h5, h6, h7]

/-- The normalizer's output has canonical whitespace. -/
theorem normalize_spacedOK (x : List Char) : spacedOK (normalize_name x) := by
  simp only [normalize_name, stripWS, collapseWS]
  exact spacedOK_stripTrail _ (spacedOK_dropWhile _ ((collapseAux_spacedOK _ false)))

/-- The normalizer's output does not start with whitespace. -/
theorem normalize_head (x : List Char) :
    ∀ c, (normalize_name x).head? = some c → isSpaceChar c = false := by
  simp only [normalize_name, stripWS, collapseWS]
  intro c hc
  rcases hl : stripTrail (List.dropWhile isSpaceChar (collapseAux false
      (List.map (fun c => if c = '_' then ' ' else c)
        (List.filter (fun c => isWordChar c || isSpaceChar c || c == '-' || c == '(' || c == ')')
          (List.map (fun c => if c = dquote ∨ c = squote then '_' else c)
            (nfkdAscii (List.map pyLower x))))))) with _ | ⟨c0, w⟩
  · rw [hl] at hc
    simp at hc
  · rw [hl] at hc
    simp at hc
    obtain ⟨ys, hys⟩ := stripTrail_head _ c0 w hl
    apply dropWhile_head_not_space _ c
    rw [hys, hc]
    rfl

/-- The normalizer's output does not end with whitespace. -/
theorem normalize_last (x : List Char) :
    ∀ c, (normalize_name x).getLast? = some c → isSpaceChar c = false := by
  simp only [normalize_name, stripWS]
  intro c hc
  exact stripTrail_last _ c hc

/-- C6: the name normalizer is idempotent — normalizing an already
normalized string returns it unchanged. -/
theorem normalize_name_idempotent (x : List Char) :
    normalize_name (normalize_name x) = normalize_name x := by
  have hspec := fun c hc => norm_char_spec x c hc
  apply normalize_name_fixed
  · exact mapIdOn _ (fun c hc => (hspec c hc).1)
  · exact nfkdAscii_ascii_id _ (fun c hc => (hspec c hc).2.1)
  · apply mapIdOn _ (fun c hc => ?_)
    exact if_neg (fun h => h.elim (fun h2 => (hspec c hc).2.2.1 h2)
      (fun h2 => (hspec c hc).2.2.2.1 h2))
  · exact List.filter_eq_self.mpr (fun c hc => (hspec c hc).2.2.2.2.1)
  · exact mapIdOn _ (fun c hc => if_neg (hspec c hc).2.2.2.2.2.1)
  · exact collapseAux_fixed _ (normalize_spacedOK x) false (by simp)
  · show stripTrail ((normalize_name x).dropWhile isSpaceChar) = normalize_name x
    rw [dropWhile_fixed _ (normalize_head x)]
    exact stripTrail_fixed _ (normalize_last x)

/-- A dot-free string has no extension split. -/
theorem splitExtAux_no_dot (ys : List Char) (h : '.' ∉ ys) : splitExtAux ys = none := by
  induction ys with
  | nil => rfl
  | cons c rest ih =>
    unfold splitExtAux
    rw [ih (fun hm => h (List.mem_cons_of_mem c hm))]
    rw [if_neg (fun hc => h (by rw [← hc]; exact List.mem_cons_self c rest))]

/-- The extension split finds the last dot. -/
theorem splitExtAux_append (ys : List Char) (h : '.' ∉ ys) :
    ∀ xs : List Char, splitExtAux (xs ++ '.' :: ys) = some (xs, '.' :: ys) := by
  intro xs
  induction xs with
  | nil =>
    show splitExtAux ('.' :: ys) = _
    unfold splitExtAux
    rw [splitExtAux_no_dot ys h, if_pos rfl]
  | cons x xs2 ih =>
    show splitExtAux (x :: (xs2 ++ '.' :: ys)) = _
    unfold splitExtAux
    rw [ih]

/-- Removing the `.mp3` extension from a base containing a space returns the
base unchanged. -/
theorem splitextBase_mp3 (base : List Char) (hsp : ' ' ∈ base) :
    splitextBase (base ++ ('.' :: 'm' :: 'p' :: '3' :: [])) = base := by
  unfold splitextBase
  rw [splitExtAux_append (('m' :: 'p' :: '3' :: [] : List Char)) (by decide) base]
  have hall : (base.all fun c => c == '.') = false := by
    cases hb : base.all (fun c => c == '.') with
    | false => rfl
    | true =>
      have := List.all_eq_true.mp hb ' ' hsp
      simp at this
  simp [hall]

/-- Splitting on the first `" - "` recovers the two halves when the left half
neither contains the separator nor ends with a space-dash overlap. -/
theorem splitDash_append (t : List Char) : ∀ a : List Char, hasSep a = false →
    endsSpaceDash a = false → splitDash (a ++ ' ' :: '-' :: ' ' :: t) = some (a, t) := by
  intro a
  induction a with
  | nil =>
    intro _ _
    show splitDash (' ' :: '-' :: ' ' :: t) = some ([], t)
    unfold splitDash
    simp [startsSep]
  | cons c a' ih =>
    intro ha he
    have ha2 : startsSep (c :: a') = false ∧ hasSep a' = false := by
      unfold hasSep at ha
      exact Bool.or_eq_false_iff.mp ha
    have hstart : startsSep (c :: (a' ++ ' ' :: '-' :: ' ' :: t)) = false := by
      rcases a' with _ | ⟨d, a''⟩
      · simp [startsSep]
      · rcases a'' with _ | ⟨e, a'''⟩
        · simpa [startsSep, endsSpaceDash] using he
        · simpa [startsSep] using ha2.1
    have he' : endsSpaceDash a' = false := by
      rcases a' with _ | ⟨d, a''⟩
      · rfl
      · rcases a'' with _ | ⟨e, a'''⟩
        · rfl
        · exact he
    show splitDash (c :: (a' ++ ' ' :: '-' :: ' ' :: t)) = _
    unfold splitDash
    rw [if_neg (by simp [hstart]), ih ha2.2 he']

/-- A take-while whose predicate holds everywhere is the identity. -/
theorem takeWhile_all {pred : Char → Bool} (l : List Char)
    (h : ∀ c ∈ l, pred c = true) : l.takeWhile pred = l := by
  induction l with
  | nil => rfl
  | cons c rest ih =>
    rw [List.takeWhile_cons, if_pos (h c (List.mem_cons_self c rest)),
      ih (fun x hx => h x (List.mem_cons_of_mem c hx))]

/-- The base name of a slash-free path is the path itself. -/
theorem pathName_no_slash (p : List Char) (h : '/' ∉ p) : pathName p = p := by
  unfold pathName
  rw [takeWhile_all p.reverse (fun c hc => ?_), List.reverse_reverse]
  have hcp : c ∈ p := List.mem_reverse.mp hc
  have : c ≠ '/' := fun hceq => h (hceq ▸ hcp)
  simpa using this

/-- Counterexample to C4 as stated: artist `1. X` and track `Y` contain no
`" - "` and normalize to the non-empty `1 x` and `y`, yet parsing
`1. X - Y.mp3` strips the leading `1. ` as a numeric prefix and returns
`(x, y)` instead of `(1 x, y)`. -/
theorem extract_round_trip_counterexample :
    hasSep (("1. X").data) = false ∧ hasSep (("Y").data) = false ∧
    normalize_name (("1. X").data) = ("1 x").data ∧
    normalize_name (("Y").data) = ("y").data ∧
    extract_artist_and_track (("1. X - Y.mp3").data) = .ok (("x").data, ("y").data) ∧
    (("x").data ≠ ("1 x").data) :=
  ⟨by decide, by decide, by decide, by decide, rfl, by decide⟩

/-- C4 (amended): for artist and track strings that contain no `" - "`,
normalize to non-empty strings, contain no slash, where the artist does not
end in `" -"`, and where the assembled file name is not subject to the
leading-numeric-prefix strip, parsing `"{artist} - {track}.mp3"` succeeds and
returns exactly `(normalize(artist), normalize(track))`. -/
theorem extract_round_trip (a t : List Char)
    (hsa : hasSep a = false) (_hst : hasSep t = false)
    (hna : normalize_name a ≠ []) (hnt : normalize_name t ≠ [])
    (hnum : stripLeadingNum (a ++ ' ' :: '-' :: ' ' :: (t ++ ('.' :: 'm' :: 'p' :: '3' :: []))) =
      a ++ ' ' :: '-' :: ' ' :: (t ++ ('.' :: 'm' :: 'p' :: '3' :: [])))
    (hend : endsSpaceDash a = false)
    (hslA : '/' ∉ a) (hslT : '/' ∉ t) :
    extract_artist_and_track (a ++ ' ' :: '-' :: ' ' :: (t ++ ('.' :: 'm' :: 'p' :: '3' :: []))) =
      .ok (normalize_name a, normalize_name t) := by
  have hslash : '/' ∉ (a ++ ' ' :: '-' :: ' ' :: (t ++ ('.' :: 'm' :: 'p' :: '3' :: []))) := by
    intro hm
    rcases List.mem_append.mp hm with hm | hm
    · exact hslA hm
    · simp only [List.mem_cons] at hm
      rcases hm with hm | hm | hm | hm
      · exact absurd hm (by decide)
      · exact absurd hm (by decide)
      · exact absurd hm (by decide)
      · rcases List.mem_append.mp hm with hm | hm
        · exact hslT hm
        · exact absurd hm (by decide)
  have hassoc : a ++ ' ' :: '-' :: ' ' :: (t ++ ('.' :: 'm' :: 'p' :: '3' :: [])) =
      (a ++ ' ' :: '-' :: ' ' :: t) ++ ('.' :: 'm' :: 'p' :: '3' :: []) := by simp
  have hsp : ' ' ∈ (a ++ ' ' :: '-' :: ' ' :: t) :=
    List.mem_append_right _ (List.mem_cons_self _ _)
  simp only [extract_artist_and_track]
  rw [pathName_no_slash _ hslash, hnum, hassoc, splitextBase_mp3 _ hsp,
    splitDash_append t a hsa hend]
  simp [hna, hnt]

/-- Witness for C4: the concrete round trip of `Foo - Bar.mp3`. -/
theorem extract_round_trip_witness :
    extract_artist_and_track
        (("Foo").data ++ ' ' :: '-' :: ' ' :: (("Bar").data ++ ('.' :: 'm' :: 'p' :: '3' :: []))) =
      .ok (normalize_name (("Foo").data), normalize_name (("Bar").data)) :=
  extract_round_trip (("Foo").data) (("Bar").data) (by decide) (by decide) (by decide)
    (by decide) (by decide) (by decide) (by decide) (by decide)

/-- Incrementing a key bumps its stored count by one. -/
theorem countOf_counterAdd_self (m : List (List Char × Nat)) (a : List Char) :
    countOf (counterAdd m a) a = countOf m a + 1 := by
  induction m with
  | nil =>
    unfold counterAdd countOf mapGet
    rw [if_pos rfl]
    rfl
  | cons p rest ih =>
    obtain ⟨k, n⟩ := p
    unfold counterAdd
    by_cases hk : k = a
    · rw [if_pos hk]
      unfold countOf mapGet
      rw [if_pos hk, if_pos hk]
      rfl
    · rw [if_neg hk]
      unfold countOf mapGet
      rw [if_neg hk, if_neg hk]
      exact ih

/-- Incrementing a key leaves every other count unchanged. -/
theorem countOf_counterAdd_other (m : List (List Char × Nat)) (a b : List Char)
    (h : b ≠ a) : countOf (counterAdd m a) b = countOf m b := by
  induction m with
  | nil =>
    unfold counterAdd countOf mapGet
    rw [if_neg (fun hk => h hk.symm)]
    rfl
  | cons p rest ih =>
    obtain ⟨k, n⟩ := p
    unfold counterAdd
    by_cases hk : k = a
    · rw [if_pos hk]
      unfold countOf mapGet
      rw [if_neg (by rw [hk]; exact fun hk2 => h hk2.symm),
        if_neg (by rw [hk]; exact fun hk2 => h hk2.symm)]
    · rw [if_neg hk]
      unfold countOf mapGet
      by_cases hk2 : k = b
      · rw [if_pos hk2, if_pos hk2]
      · rw [if_neg hk2, if_neg hk2]
        exact ih

/-- The keys after an increment: unchanged for a present key, the new key
appended otherwise. -/
theorem keys_counterAdd (m : List (List Char × Nat)) (a : List Char) :
    (counterAdd m a).map Prod.fst = m.map Prod.fst ∨
      (counterAdd m a).map Prod.fst = m.map Prod.fst ++ [a] := by
  induction m with
  | nil => exact Or.inr rfl
  | cons p rest ih =>
    obtain ⟨k, n⟩ := p
    unfold counterAdd
    by_cases hk : k = a
    · rw [if_pos hk]
      exact Or.inl rfl
    · rw [if_neg hk]
      rcases ih with ih | ih
      · exact Or.inl (by simp only [List.map_cons]; rw [ih])
      · exact Or.inr (by simp only [List.map_cons]; rw [ih]; rfl)

/-- An increment only ever appends the incremented key. -/
theorem keys_counterAdd_subset (m : List (List Char × Nat)) (a b : List Char)
    (h : b ∈ (counterAdd m a).map Prod.fst) : b ∈ m.map Prod.fst ∨ b = a := by
  rcases keys_counterAdd m a with hk | hk
  · rw [hk] at h
    exact Or.inl h
  · rw [hk] at h
    rcases List.mem_append.mp h with h | h
    · exact Or.inl h
    · exact Or.inr (List.mem_singleton.mp h)

/-- A key with a positive count is present. -/
theorem mem_keys_of_countOf_pos (m : List (List Char × Nat)) (a : List Char)
    (h : 0 < countOf m a) : a ∈ m.map Prod.fst := by
  induction m with
  | nil => simp [countOf, mapGet] at h
  | cons p rest ih =>
    obtain ⟨k, n⟩ := p
    unfold countOf mapGet at h
    by_cases hk : k = a
    · rw [hk]
      exact List.mem_cons_self a _
    · rw [if_neg hk] at h
      exact List.mem_cons_of_mem _ (ih h)

/-- A present key keeps a positive count after increments from a counter that
stores it positively. -/
theorem countOf_pos_of_mem_keys (m : List (List Char × Nat)) (a : List Char)
    (hpos : ∀ p ∈ m, 0 < p.2) (h : a ∈ m.map Prod.fst) : 0 < countOf m a := by
  induction m with
  | nil => simp at h
  | cons p rest ih =>
    obtain ⟨k, n⟩ := p
    unfold countOf mapGet
    by_cases hk : k = a
    · rw [if_pos hk]
      exact hpos (k, n) (List.mem_cons_self _ _)
    · rw [if_neg hk]
      rcases List.mem_cons.mp h with h | h
      · exact absurd h.symm hk
      · exact ih (fun q hq => hpos q (List.mem_cons_of_mem _ hq)) h

/-- Folding increments over a list adds each occurrence to the count. -/
theorem countOf_foldl (l : List (List Char)) :
    ∀ (m : List (List Char × Nat)) (a : List Char),
      countOf (l.foldl counterAdd m) a = countOf m a + l.count a := by
  induction l with
  | nil => intro m a; simp
  | cons x rest ih =>
    intro m a
    rw [List.foldl_cons, ih]
    by_cases hx : x = a
    · subst hx
      rw [countOf_counterAdd_self]
      simp [List.count_cons]
      omega
    · rw [countOf_counterAdd_other m x a (fun h => hx h.symm)]
      have hcnt : (x :: rest).count a = rest.count a := by
        simp [List.count_cons, hx]
      rw [hcnt]

/-- An increment keeps the keys when the key is present, and appends the
absent key otherwise. -/
theorem keys_counterAdd_cases (m : List (List Char × Nat)) (a : List Char) :
    (a ∈ m.map Prod.fst ∧ (counterAdd m a).map Prod.fst = m.map Prod.fst) ∨
      (a ∉ m.map Prod.fst ∧ (counterAdd m a).map Prod.fst = m.map Prod.fst ++ [a]) := by
  induction m with
  | nil => exact Or.inr ⟨by simp, rfl⟩
  | cons p rest ih =>
    obtain ⟨k, n⟩ := p
    unfold counterAdd
    by_cases hk : k = a
    · rw [if_pos hk]
      exact Or.inl ⟨by simp [hk], rfl⟩
    · rw [if_neg hk]
      rcases ih with ⟨hm, he⟩ | ⟨hm, he⟩
      · exact Or.inl ⟨List.mem_cons_of_mem _ hm, by simp only [List.map_cons]; rw [he]⟩
      · refine Or.inr ⟨?_, by simp only [List.map_cons]; rw [he]; rfl⟩
        intro hmem
        rcases List.mem_cons.mp hmem with h | h
        · exact hk h.symm
        · exact hm h

/-- The fold keeps counter keys pairwise distinct. -/
theorem keys_nodup_foldl (l : List (List Char)) :
    ∀ m : List (List Char × Nat), (m.map Prod.fst).Nodup →
      ((l.foldl counterAdd m).map Prod.fst).Nodup := by
  induction l with
  | nil => intro m h; exact h
  | cons x rest ih =>
    intro m h
    rw [List.foldl_cons]
    apply ih
    rcases keys_counterAdd_cases m x with ⟨_, he⟩ | ⟨hm, he⟩
    · rw [he]; exact h
    · rw [he]
      simp [List.nodup_append, h, hm]

/-- Every stored count is positive after the fold. -/
theorem counts_pos_foldl (l : List (List Char)) :
    ∀ m : List (List Char × Nat), (∀ p ∈ m, 0 < p.2) →
      ∀ p ∈ l.foldl counterAdd m, 0 < p.2 := by
  induction l with
  | nil => intro m h; exact h
  | cons x rest ih =>
    intro m h
    rw [List.foldl_cons]
    apply ih
    intro p hp
    induction m with
    | nil =>
      rcases List.mem_singleton.mp hp with rfl
      simp
    | cons q m2 ihm =>
      obtain ⟨k, n⟩ := q
      unfold counterAdd at hp
      by_cases hk : k = x
      · rw [if_pos hk] at hp
        rcases List.mem_cons.mp hp with rfl | hp2
        · simp
        · exact h p (List.mem_cons_of_mem _ hp2)
      · rw [if_neg hk] at hp
        rcases List.mem_cons.mp hp with rfl | hp2
        · exact h (k, n) (List.mem_cons_self _ _)
        · exact ihm (fun q hq => h q (List.mem_cons_of_mem _ hq)) hp2

/-- With pairwise-distinct keys, a stored entry's count is the looked-up
count of its key. -/
theorem entry_countOf (m : List (List Char × Nat)) (hnd : (m.map Prod.fst).Nodup) :
    ∀ p ∈ m, countOf m p.1 = p.2 := by
  induction m with
  | nil => intro p hp; simp at hp
  | cons q rest ih =>
    obtain ⟨k, n⟩ := q
    intro p hp
    rcases List.mem_cons.mp hp with rfl | hp2
    · unfold countOf mapGet
      rw [if_pos rfl]
      rfl
    · unfold countOf mapGet
      by_cases hk : k = p.1
      · exfalso
        have hkm : p.1 ∈ rest.map Prod.fst := List.mem_map_of_mem Prod.fst hp2
        rw [List.map_cons, List.nodup_cons] at hnd
        exact hnd.1 (hk ▸ hkm)
      · rw [if_neg hk]
        rw [List.map_cons, List.nodup_cons] at hnd
        exact ih hnd.2 p hp2

/-- A key is stored in the folded counter exactly when it occurs in the
folded list (starting from the empty counter). -/
theorem mem_keys_foldl_nil (l : List (List Char)) (a : List Char) :
    a ∈ ((l.foldl counterAdd []).map Prod.fst) ↔ a ∈ l := by
  constructor
  · intro h
    have hpos := countOf_pos_of_mem_keys _ a (counts_pos_foldl l [] (by simp)) h
    rw [countOf_foldl] at hpos
    simp only [countOf, mapGet, Option.getD_none, Nat.zero_add] at hpos
    exact List.count_pos_iff.mp hpos
  · intro h
    apply mem_keys_of_countOf_pos
    rw [countOf_foldl]
    have := List.count_pos_iff.mpr h
    omega

/-- Stable descending insertion permutes to a cons. -/
theorem insertByCountDesc_perm (p : List Char × Nat) (l : List (List Char × Nat)) :
    List.Perm (insertByCountDesc p l) (p :: l) := by
  induction l with
  | nil => exact List.Perm.refl _
  | cons q rest ih =>
    unfold insertByCountDesc
    by_cases h : p.2 < q.2 ∨ p.2 = q.2
    · rw [if_pos h]
      exact List.Perm.trans (List.Perm.cons q ih) (List.Perm.swap p q rest)
    · rw [if_neg h]

/-- `most_common` permutes the counter items. -/
theorem sortByCountDesc_perm (m : List (List Char × Nat)) :
    List.Perm (sortByCountDesc m) m := by
  induction m with
  | nil => exact List.Perm.refl _
  | cons p rest ih =>
    unfold sortByCountDesc
    exact List.Perm.trans (insertByCountDesc_perm p _) (List.Perm.cons p ih)

/-- Stable descending insertion preserves descending sortedness. -/
theorem insertByCountDesc_sorted (p : List Char × Nat) (l : List (List Char × Nat))
    (h : l.Pairwise (fun x y => y.2 ≤ x.2)) :
    (insertByCountDesc p l).Pairwise (fun x y => y.2 ≤ x.2) := by
  induction l with
  | nil => simp [insertByCountDesc]
  | cons q rest ih =>
    rw [List.pairwise_cons] at h
    unfold insertByCountDesc
    by_cases hc : p.2 < q.2 ∨ p.2 = q.2
    · rw [if_pos hc]
      rw [List.pairwise_cons]
      constructor
      · intro r hr
        have hr2 := (insertByCountDesc_perm p rest).mem_iff.mp hr
        rcases List.mem_cons.mp hr2 with rfl | hr3
        · omega
        · exact h.1 r hr3
      · exact ih h.2
    · rw [if_neg hc]
      rw [List.pairwise_cons]
      refine ⟨?_, List.pairwise_cons.mpr h⟩
      intro r hr
      rcases List.mem_cons.mp hr with rfl | hr2
      · omega
      · have := h.1 r hr2
        omega

/-- `most_common` is sorted by descending count. -/
theorem sortByCountDesc_sorted (m : List (List Char × Nat)) :
    (sortByCountDesc m).Pairwise (fun x y => y.2 ≤ x.2) := by
  induction m with
  | nil => simp [sortByCountDesc]
  | cons p rest ih => exact insertByCountDesc_sorted p _ ih

/-- Strict lexicographic comparison is asymmetric. -/
theorem lexLt_asymm (x : List Char) : ∀ y : List Char, lexLt x y = true → lexLt y x = false := by
  induction x with
  | nil =>
    intro y h
    cases y with
    | nil => simp [lexLt] at h
    | cons d ys => rfl
  | cons c xs ih =>
    intro y h
    cases y with
    | nil => simp [lexLt] at h
    | cons d ys =>
      unfold lexLt at h ⊢
      by_cases hcd : c < d
      · rw [if_neg (lt_asymm hcd), if_pos hcd]
      · rw [if_neg hcd] at h
        by_cases hdc : d < c
        · rw [if_pos hdc] at h
          exact absurd h (by simp)
        · rw [if_neg hdc] at h
          rw [if_neg hdc, if_neg hcd]
          exact ih ys h

/-- Strict lexicographic comparison is total on distinct strings. -/
theorem lexLt_conn (x : List Char) : ∀ y : List Char, x ≠ y →
    lexLt x y = true ∨ lexLt y x = true := by
  induction x with
  | nil =>
    intro y hne
    cases y with
    | nil => exact absurd rfl hne
    | cons d ys => exact Or.inl rfl
  | cons c xs ih =>
    intro y hne
    cases y with
    | nil => exact Or.inr rfl
    | cons d ys =>
      unfold lexLt
      rcases lt_trichotomy c d with hcd | hcd | hcd
      · exact Or.inl (by rw [if_pos hcd])
      · subst hcd
        have hxs : xs ≠ ys := fun h => hne (by rw [h])
        rcases ih ys hxs with h | h
        · exact Or.inl (by rw [if_neg (lt_irrefl c), if_neg (lt_irrefl c)]; exact h)
        · exact Or.inr (by rw [if_neg (lt_irrefl c), if_neg (lt_irrefl c)]; exact h)
      · exact Or.inr (by rw [if_pos hcd])

/-- The looked-up counter count is the declarative occurrence count. -/
theorem countOf_counterOf (tracks : List Track) (a : List Char) :
    countOf (counterOf tracks) a = occCount tracks a := by
  unfold counterOf occCount
  rw [countOf_foldl]
  simp [countOf, mapGet]

/-- The album counter has pairwise-distinct keys. -/
theorem counterOf_keys_nodup (tracks : List Track) :
    ((counterOf tracks).map Prod.fst).Nodup :=
  keys_nodup_foldl _ [] (by simp)

/-- Every stored entry of the album counter holds its key's occurrence
count. -/
theorem counterOf_entry (tracks : List Track) :
    ∀ p ∈ counterOf tracks, p.2 = occCount tracks p.1 := by
  intro p hp
  have h := entry_countOf _ (counterOf_keys_nodup tracks) p hp
  rw [countOf_counterOf] at h
  exact h.symm

/-- Every stored count of the album counter is positive. -/
theorem counterOf_pos (tracks : List Track) : ∀ p ∈ counterOf tracks, 0 < p.2 :=
  counts_pos_foldl _ [] (by simp)

/-- An artist with a positive occurrence count has its entry stored. -/
theorem counterOf_mem (tracks : List Track) (a : List Char)
    (h : 0 < occCount tracks a) : (a, occCount tracks a) ∈ counterOf tracks := by
  have hk : a ∈ (counterOf tracks).map Prod.fst := by
    unfold counterOf
    rw [mem_keys_foldl_nil]
    unfold occCount at h
    exact List.count_pos_iff.mp h
  obtain ⟨p, hp, hp1⟩ := List.mem_map.mp hk
  have hv := counterOf_entry tracks p hp
  have : p = (a, occCount tracks a) := by
    obtain ⟨k, n⟩ := p
    simp only at hp1 hv
    rw [hp1] at hv ⊢
    rw [hv]
  rw [← this]
  exact hp

/-- The head count of `most_common` bounds every occurrence count, and is
attained by its own key. -/
theorem sortHead_max (tracks : List Track) (a0 : List Char) (c0 : Nat)
    (mcRest : List (List Char × Nat))
    (hmc : sortByCountDesc (counterOf tracks) = (a0, c0) :: mcRest) :
    occCount tracks a0 = c0 ∧ 0 < c0 ∧ ∀ b, occCount tracks b ≤ c0 := by
  have hperm := sortByCountDesc_perm (counterOf tracks)
  rw [hmc] at hperm
  have hhead : (a0, c0) ∈ counterOf tracks :=
    hperm.subset (List.mem_cons_self _ _)
  have ha0 : c0 = occCount tracks a0 := counterOf_entry tracks _ hhead
  have hpos : 0 < c0 := counterOf_pos tracks _ hhead
  refine ⟨ha0.symm, hpos, ?_⟩
  intro b
  by_cases hb : 0 < occCount tracks b
  · have hentry := counterOf_mem tracks b hb
    have hmem2 : (b, occCount tracks b) ∈ (a0, c0) :: mcRest := hperm.symm.subset hentry
    rcases List.mem_cons.mp hmem2 with heq | hmem3
    · injection heq with h1 h2
      omega
    · have hsorted := sortByCountDesc_sorted (counterOf tracks)
      rw [hmc, List.pairwise_cons] at hsorted
      exact hsorted.1 _ hmem3
  · omega

/-- Membership in the top-artist list: exactly the artists whose occurrence
count is positive and equals the head count. -/
theorem top_mem_iff (tracks : List Track) (a0 : List Char) (c0 : Nat)
    (mcRest : List (List Char × Nat))
    (hmc : sortByCountDesc (counterOf tracks) = (a0, c0) :: mcRest) (b : List Char) :
    b ∈ ((((a0, c0) :: mcRest).filter (fun p => p.2 = c0)).map Prod.fst) ↔
      (0 < occCount tracks b ∧ occCount tracks b = c0) := by
  have hperm := sortByCountDesc_perm (counterOf tracks)
  rw [hmc] at hperm
  constructor
  · intro h
    obtain ⟨p, hp, hp1⟩ := List.mem_map.mp h
    obtain ⟨hpmem, hpc⟩ := List.mem_filter.mp hp
    have hpctr : p ∈ counterOf tracks := hperm.subset hpmem
    have hv := counterOf_entry tracks p hpctr
    have hpos := counterOf_pos tracks p hpctr
    simp only [decide_eq_true_eq] at hpc
    rw [hp1] at hv
    rw [← hv, hpc]
    exact ⟨by omega, rfl⟩
  · intro ⟨hpos, hc⟩
    have hentry := counterOf_mem tracks b hpos
    have hmem2 : (b, occCount tracks b) ∈ (a0, c0) :: mcRest := hperm.symm.subset hentry
    apply List.mem_map.mpr
    refine ⟨(b, occCount tracks b), List.mem_filter.mpr ⟨hmem2, by simp [hc]⟩, rfl⟩

/-- The top-artist list has pairwise-distinct entries. -/
theorem top_nodup (tracks : List Track) (a0 : List Char) (c0 : Nat)
    (mcRest : List (List Char × Nat))
    (hmc : sortByCountDesc (counterOf tracks) = (a0, c0) :: mcRest) :
    ((((a0, c0) :: mcRest).filter (fun p => p.2 = c0)).map Prod.fst).Nodup := by
  have hperm := sortByCountDesc_perm (counterOf tracks)
  rw [hmc] at hperm
  have hnd : (((a0, c0) :: mcRest).map Prod.fst).Nodup :=
    ((hperm.map Prod.fst).nodup_iff).mpr (counterOf_keys_nodup tracks)
  exact hnd.sublist (List.Sublist.map Prod.fst (List.filter_sublist _))

/-- The consolidator returns the unique artist attaining the maximal
occurrence count. -/
theorem consolidate_unique_max (tracks : List Track) (a : List Char)
    (hne : tracks ≠ []) (hpos : 0 < occCount tracks a)
    (hmax : ∀ b, b ≠ a → occCount tracks b < occCount tracks a) :
    _get_consolidated_album_artist tracks = a := by
  obtain ⟨t0, rest, rfl⟩ : ∃ t0 rest, tracks = t0 :: rest := by
    cases tracks with
    | nil => exact absurd rfl hne
    | cons x xs => exact ⟨x, xs, rfl⟩
  rcases hmc : sortByCountDesc (counterOf (t0 :: rest)) with _ | ⟨⟨a0, c0⟩, mcRest⟩
  · exfalso
    have hperm := sortByCountDesc_perm (counterOf (t0 :: rest))
    rw [hmc] at hperm
    have hctr : counterOf (t0 :: rest) = [] := hperm.symm.eq_nil
    have hmem := counterOf_mem (t0 :: rest) a hpos
    rw [hctr] at hmem
    simp at hmem
  · obtain ⟨ha0, hc0pos, hub⟩ := sortHead_max _ a0 c0 mcRest hmc
    have hca : c0 = occCount (t0 :: rest) a := by
      have h1 : occCount (t0 :: rest) a ≤ c0 := hub a
      have h2 : c0 ≤ occCount (t0 :: rest) a := by
        by_cases ha : a0 = a
        · rw [← ha0, ha]
        · have := hmax a0 ha
          omega
      omega
    have htop : ((((a0, c0) :: mcRest).filter (fun p => p.2 = c0)).map Prod.fst) = [a] := by
      apply List.perm_singleton.mp
      apply (List.perm_ext_iff_of_nodup (top_nodup _ a0 c0 mcRest hmc)
        (List.nodup_singleton a)).mpr
      intro b
      rw [top_mem_iff _ a0 c0 mcRest hmc b]
      simp only [List.mem_singleton]
      constructor
      · intro hb
        by_contra hba
        have := hmax b hba
        omega
      · intro hba
        subst hba
        exact ⟨hpos, hca.symm⟩
    unfold _get_consolidated_album_artist
    simp only [hmc]
    rw [htop]
    simp

/-- A permutation of a two-element list of distinct strings is one of its
two arrangements. -/
theorem perm_pair_cases (l : List (List Char)) (a b : List Char) (hab : a ≠ b)
    (h : List.Perm l [a, b]) : l = [a, b] ∨ l = [b, a] := by
  have hlen := h.length_eq
  rcases l with _ | ⟨x, _ | ⟨y, _ | ⟨z, l3⟩⟩⟩
  · simp at hlen
  · simp at hlen
  · have hx : x = a ∨ x = b := by
      have := h.subset (List.mem_cons_self x [y])
      simpa using this
    have hbmem : b ∈ [x, y] := h.symm.subset (by simp)
    have hamem : a ∈ [x, y] := h.symm.subset (by simp)
    rcases hx with rfl | rfl
    · rcases (by simpa using hbmem : b = x ∨ b = y) with rfl | rfl
      · exact absurd rfl (fun h2 => hab h2.symm)
      · exact Or.inl rfl
    · rcases (by simpa using hamem : a = x ∨ a = y) with rfl | rfl
      · exact absurd rfl hab
      · exact Or.inr rfl
  · simp at hlen

/-- Sorting a pair of distinct strings and joining with the ampersand
separator yields the lexical order, whichever arrangement is sorted. -/
theorem joinAmp_sorted_pair (a b : List Char) (hab : a ≠ b) :
    joinList ((" & ").data) (sortLexAsc [a, b]) =
      (if lexLt a b = true then a ++ (" & ").data ++ b else b ++ (" & ").data ++ a) ∧
    joinList ((" & ").data) (sortLexAsc [b, a]) =
      (if lexLt a b = true then a ++ (" & ").data ++ b else b ++ (" & ").data ++ a) := by
  have hs1 : sortLexAsc [a, b] = insertLex a [b] := rfl
  have hs2 : sortLexAsc [b, a] = insertLex b [a] := rfl
  by_cases h1 : lexLt a b = true
  · have h2 := lexLt_asymm a b h1
    rw [if_pos h1]
    constructor
    · rw [hs1]
      unfold insertLex
      rw [if_neg (by simp [h2])]
      rfl
    · rw [hs2]
      unfold insertLex
      rw [if_pos h1]
      rfl
  · have h2 : lexLt b a = true := by
      rcases lexLt_conn a b hab with h | h
      · exact absurd h h1
      · exact h
    rw [if_neg h1]
    constructor
    · rw [hs1]
      unfold insertLex
      rw [if_pos h2]
      rfl
    · rw [hs2]
      unfold insertLex
      rw [if_neg (by simp [h1])]
      rfl

/-- The consolidator joins exactly two tied maximal artists in lexical
order. -/
theorem consolidate_two_tie (tracks : List Track) (a b : List Char)
    (hne : tracks ≠ []) (hab : a ≠ b) (hpos : 0 < occCount tracks a)
    (hoccb : occCount tracks b = occCount tracks a)
    (hmax : ∀ c, c ≠ a → c ≠ b → occCount tracks c < occCount tracks a) :
    _get_consolidated_album_artist tracks =
      (if lexLt a b = true then a ++ (" & ").data ++ b else b ++ (" & ").data ++ a) := by
  obtain ⟨t0, rest, rfl⟩ : ∃ t0 rest, tracks = t0 :: rest := by
    cases tracks with
    | nil => exact absurd rfl hne
    | cons x xs => exact ⟨x, xs, rfl⟩
  rcases hmc : sortByCountDesc (counterOf (t0 :: rest)) with _ | ⟨⟨a0, c0⟩, mcRest⟩
  · exfalso
    have hperm := sortByCountDesc_perm (counterOf (t0 :: rest))
    rw [hmc] at hperm
    have hctr : counterOf (t0 :: rest) = [] := hperm.symm.eq_nil
    have hmem := counterOf_mem (t0 :: rest) a hpos
    rw [hctr] at hmem
    simp at hmem
  · obtain ⟨ha0, hc0pos, hub⟩ := sortHead_max _ a0 c0 mcRest hmc
    have hMub : ∀ x, occCount (t0 :: rest) x ≤ occCount (t0 :: rest) a := by
      intro x
      by_cases hxa : x = a
      · rw [hxa]
      · by_cases hxb : x = b
        · rw [hxb, hoccb]
        · exact Nat.le_of_lt (hmax x hxa hxb)
    have hca : c0 = occCount (t0 :: rest) a := by
      have h1 : occCount (t0 :: rest) a ≤ c0 := hub a
      have h2 : c0 ≤ occCount (t0 :: rest) a := ha0 ▸ hMub a0
      omega
    have htop : List.Perm ((((a0, c0) :: mcRest).filter (fun p => p.2 = c0)).map Prod.fst)
        [a, b] := by
      apply (List.perm_ext_iff_of_nodup (top_nodup _ a0 c0 mcRest hmc) (by simp [hab])).mpr
      intro x
      rw [top_mem_iff _ a0 c0 mcRest hmc x]
      simp only [List.mem_cons, List.mem_singleton, List.not_mem_nil, or_false]
      constructor
      · intro hx
        by_cases hxa : x = a
        · exact Or.inl hxa
        · by_cases hxb : x = b
          · exact Or.inr hxb
          · exfalso
            have := hmax x hxa hxb
            omega
      · intro hx
        rcases hx with rfl | rfl
        · exact ⟨hpos, hca.symm⟩
        · rw [hoccb]
          exact ⟨hpos, hca.symm⟩
    unfold _get_consolidated_album_artist
    simp only [hmc]
    rcases perm_pair_cases _ a b hab htop with htop2 | htop2
    · rw [htop2]
      simp only [List.length_cons, List.length_nil]
      rw [if_neg (by omega), if_neg (by omega)]
      exact (joinAmp_sorted_pair a b hab).1
    · rw [htop2]
      simp only [List.length_cons, List.length_nil]
      rw [if_neg (by omega), if_neg (by omega)]
      exact (joinAmp_sorted_pair a b hab).2

/-- The consolidator returns the various-artists marker when three or more
artists tie at the maximal occurrence count. -/
theorem consolidate_various (tracks : List Track) (a b c : List Char)
    (hne : tracks ≠ []) (hab : a ≠ b) (hac : a ≠ c) (hbc : b ≠ c)
    (hpos : 0 < occCount tracks a)
    (hoccb : occCount tracks b = occCount tracks a)
    (hoccc : occCount tracks c = occCount tracks a)
    (hub2 : ∀ d, occCount tracks d ≤ occCount tracks a) :
    _get_consolidated_album_artist tracks = ("Various Artists").data := by
  obtain ⟨t0, rest, rfl⟩ : ∃ t0 rest, tracks = t0 :: rest := by
    cases tracks with
    | nil => exact absurd rfl hne
    | cons x xs => exact ⟨x, xs, rfl⟩
  rcases hmc : sortByCountDesc (counterOf (t0 :: rest)) with _ | ⟨⟨a0, c0⟩, mcRest⟩
  · exfalso
    have hperm := sortByCountDesc_perm (counterOf (t0 :: rest))
    rw [hmc] at hperm
    have hctr : counterOf (t0 :: rest) = [] := hperm.symm.eq_nil
    have hmem := counterOf_mem (t0 :: rest) a hpos
    rw [hctr] at hmem
    simp at hmem
  · obtain ⟨ha0, hc0pos, hub⟩ := sortHead_max _ a0 c0 mcRest hmc
    have hca : c0 = occCount (t0 :: rest) a := by
      have h1 : occCount (t0 :: rest) a ≤ c0 := hub a
      have h2 : c0 ≤ occCount (t0 :: rest) a := ha0 ▸ hub2 a0
      omega
    have hsub : [a, b, c] ⊆ ((((a0, c0) :: mcRest).filter (fun p => p.2 = c0)).map Prod.fst) := by
      intro x hx
      rw [top_mem_iff _ a0 c0 mcRest hmc x]
      simp only [List.mem_cons, List.not_mem_nil, or_false] at hx
      rcases hx with rfl | rfl | rfl
      · exact ⟨hpos, hca.symm⟩
      · rw [hoccb]
        exact ⟨hpos, hca.symm⟩
      · rw [hoccc]
        exact ⟨hpos, hca.symm⟩
    have hlen : 3 ≤ ((((a0, c0) :: mcRest).filter (fun p => p.2 = c0)).map Prod.fst).length := by
      have hnd : ([a, b, c] : List (List Char)).Nodup := by simp [hab, hac, hbc]
      have := (hnd.subperm hsub).length_le
      simpa using this
    unfold _get_consolidated_album_artist
    simp only [hmc]
    rw [if_neg (by omega), if_pos (by omega)]

/-- The consolidator falls back to the first track's raw album-artist field
when every track's artist list is empty. -/
theorem consolidate_no_artists (t0 : Track) (rest : List Track)
    (h : ∀ tr ∈ t0 :: rest, tr.artists = []) :
    _get_consolidated_album_artist (t0 :: rest) = t0.albumArtistName := by
  have hflat : (((t0 :: rest).map Track.artists).flatten) = [] := by
    rw [List.flatten_eq_nil_iff]
    intro xs hxs
    obtain ⟨tr, htr, rfl⟩ := List.mem_map.mp hxs
    exact h tr htr
  have hctr : counterOf (t0 :: rest) = [] := by
    unfold counterOf
    rw [hflat]
    rfl
  unfold _get_consolidated_album_artist
  rw [hctr]
  rfl

/-- C5: the album-artist consolidator returns the first track's raw
album-artist field when every artist list is empty, `Unknown Artist` for an
empty track list, the unique artist attaining the maximal occurrence count,
the two tied maximal artists joined by the ampersand separator in lexical
order, and the literal `Various Artists` when three or more artists tie at
the maximum. -/
theorem consolidated_album_artist_cases :
    (_get_consolidated_album_artist [] = ("Unknown Artist").data) ∧
    (∀ (t0 : Track) (rest : List Track), (∀ tr ∈ t0 :: rest, tr.artists = []) →
      _get_consolidated_album_artist (t0 :: rest) = t0.albumArtistName) ∧
    (∀ (tracks : List Track) (a : List Char), tracks ≠ [] → 0 < occCount tracks a →
      (∀ b, b ≠ a → occCount tracks b < occCount tracks a) →
      _get_consolidated_album_artist tracks = a) ∧
    (∀ (tracks : List Track) (a b : List Char), tracks ≠ [] → a ≠ b →
      0 < occCount tracks a → occCount tracks b = occCount tracks a →
      (∀ c, c ≠ a → c ≠ b → occCount tracks c < occCount tracks a) →
      _get_consolidated_album_artist tracks =
        (if lexLt a b = true then a ++ (" & ").data ++ b else b ++ (" & ").data ++ a)) ∧
    (∀ (tracks : List Track) (a b c : List Char), tracks ≠ [] → a ≠ b → a ≠ c → b ≠ c →
      0 < occCount tracks a → occCount tracks b = occCount tracks a →
      occCount tracks c = occCount tracks a →
      (∀ d, occCount tracks d ≤ occCount tracks a) →
      _get_consolidated_album_artist tracks = ("Various Artists").data) :=
  ⟨rfl, consolidate_no_artists, consolidate_unique_max, consolidate_two_tie,
    consolidate_various⟩

/-- Witness for C5: two tracks listing A and B in opposite orders tie the
two artists, which are joined in lexical order. -/
theorem consolidated_album_artist_cases_witness :
    _get_consolidated_album_artist [sTrack, sTrackRev] =
      (if lexLt (("A").data) (("B").data) = true then
        ("A").data ++ (" & ").data ++ ("B").data
      else ("B").data ++ (" & ").data ++ ("A").data) := by
  apply consolidated_album_artist_cases.2.2.2.1 [sTrack, sTrackRev] (("A").data) (("B").data)
    (by simp) (by decide) (by decide) (by decide)
  intro c hca hcb
  have h0 : occCount [sTrack, sTrackRev] c = 0 := by
    unfold occCount
    apply List.count_eq_zero.mpr
    intro hmem
    have hor : c = ['A'] ∨ c = ['B'] ∨ c = ['A'] := by
      simpa [sTrack, sTrackRev] using hmem
    rcases hor with rfl | rfl | rfl
    · exact hca rfl
    · exact hcb rfl
    · exact hca rfl
  rw [h0]
  decide
